import Mathlib

/-! VT-2R saturation processor: the per-sample DSP chain

Shallow embedding of `src/src/PluginProcessor.cpp` (class `VT2BBlackProcessor`).

Numeric model.  The C++ code computes in `float` and `double`.  The main
reading takes every such value as a real number and every arithmetic operation
as exact: casts between `float` and `double` are the identity, `std::pow`,
`std::sin`, `std::cos` and `std::tanh` are the real functions, and decimal
literals denote the rationals they spell, except the flush threshold `1e-20f`,
which is the binary32 number it denotes.  Where rounding decides a statement
(the strict bound on the saturator, the identity at drive 0), the sample chain
is read a second time in binary32 and binary64, in the definitions whose names
end in `F`.  Overflow, infinities and NaN are outside both readings.

Library boundary.  `juce::SmoothedValue` and `juce::AudioBuffer` are JUCE
classes, not code of this repository.  The two smoothers enter `processBlock`
as the sequences of values that `getNextValue()` returns at each sample index
of the block; an audio buffer is a channel-indexed, sample-indexed table of
reals with its two dimensions.
-/

namespace VT2R

noncomputable section

/-! ## Constants (namespace `VT2RConstants` of the source) -/

namespace VT2RConstants

def kDriveMin : ℝ := 0
def kDriveMax : ℝ := 100
def kDriveDefault : ℝ := 0
def kMixMin : ℝ := 0
def kMixMax : ℝ := 100
def kMixDefault : ℝ := 100
def kPreEmphasisFreq : ℝ := 2000
def kPreEmphasisQ : ℝ := 0.7
def kMaxPreEmphasisGainDb : ℝ := 9

end VT2RConstants

/-- The literal `1e-20f` of source line 241: the binary32 number nearest to
`10⁻²⁰`, which is `12379400 * 2⁻⁹⁰` (about `9.99999968e-21`, just below the
decimal `1e-20`). -/
def flushThreshold : ℝ := 12379400 / 2 ^ 90

/-! ## Data model -/

/-- Filter memory of one channel (`struct FilterState` of the header). -/
structure FilterState where
  z1 : ℝ
  z2 : ℝ

/-- The five normalised biquad coefficients `fb0, fb1, fb2, fa1, fa2`. -/
structure Coeffs where
  fb0 : ℝ
  fb1 : ℝ
  fb2 : ℝ
  fa1 : ℝ
  fa2 : ℝ

/-- An audio block: `data c s` is sample `s` of channel `c`
(`buffer.getWritePointer (c)[s]`). -/
structure AudioBuffer where
  numChannels : ℕ
  numSamples : ℕ
  data : ℕ → ℕ → ℝ

/-- The members of `VT2BBlackProcessor` that the DSP chain reads or writes,
with the channel counts the JUCE base class reports. -/
structure Processor where
  totalNumInputChannels : ℕ
  totalNumOutputChannels : ℕ
  currentSampleRate : ℝ
  midBoostStateL : FilterState
  midBoostStateR : FilterState
  lastInL : ℝ
  lastInR : ℝ

/-! ## Stateless stages -/

/-- `VT2BBlackProcessor::processSaturation`. -/
def processSaturation (input drive : ℝ) : ℝ :=
  let normDrive := drive / 100
  let inputGain := 1 + normDrive * 8
  let x := input * inputGain
  Real.tanh x

/-- `VT2BBlackProcessor::calculateMakeupGain`. -/
def calculateMakeupGain (drive : ℝ) : ℝ :=
  let normDrive := drive / 100
  1 / (1 + normDrive * 4)

/-! ## Pre-emphasis filter -/

/-- Coefficient part of `processPreEmphasis` (source lines 188-217): the
peaking-EQ coefficients for the given drive, normalised by `a0`. -/
def preEmphasisCoeffs (currentSampleRate drive : ℝ) : Coeffs :=
  let normDrive := drive / 100
  let gainDb := normDrive * VT2RConstants.kMaxPreEmphasisGainDb
  let A := (10 : ℝ) ^ (gainDb / 40)
  let w0 := 2 * Real.pi * VT2RConstants.kPreEmphasisFreq / currentSampleRate
  let alpha := Real.sin w0 / (2 * VT2RConstants.kPreEmphasisQ)
  let b0 := 1 + alpha * A
  let b1 := -2 * Real.cos w0
  let b2 := 1 - alpha * A
  let a0 := 1 + alpha / A
  let a1 := -2 * Real.cos w0
  let a2 := 1 - alpha / A
  { fb0 := b0 / a0, fb1 := b1 / a0, fb2 := b2 / a0, fa1 := a1 / a0, fa2 := a2 / a0 }

/-- Filter part of `processPreEmphasis` (source lines 219-247) for given
coefficients: returns the output sample and the updated state.  The first
assignment to `output` (the direct-form expression) is kept as `outputDF1`;
the source overwrites it before use. -/
def biquadProcess (c : Coeffs) (input : ℝ) (state : FilterState) : ℝ × FilterState :=
  let _outputDF1 := c.fb0 * input + c.fb1 * state.z1 + c.fb2 * state.z2 -
    c.fa1 * state.z1 - c.fa2 * state.z2
  let w := input - c.fa1 * state.z1 - c.fa2 * state.z2
  let output := c.fb0 * w + c.fb1 * state.z1 + c.fb2 * state.z2
  let wFlushed := if |w| < flushThreshold then 0 else w
  (output, { z1 := wFlushed, z2 := state.z1 })

/-- `VT2BBlackProcessor::processPreEmphasis`: the member `currentSampleRate`
is the first argument; the result pairs the returned sample with the new
value of the `state` reference. -/
def processPreEmphasis (currentSampleRate input drive : ℝ) (state : FilterState) :
    ℝ × FilterState :=
  biquadProcess (preEmphasisCoeffs currentSampleRate drive) input state

/-! ## Block processing -/

/-- `juce::AudioBuffer::clear (channel, startSample, numSamples)`. -/
def AudioBuffer.clear (buffer : AudioBuffer) (channel startSample num : ℕ) : AudioBuffer :=
  { buffer with
    data := fun c s =>
      if c = channel ∧ startSample ≤ s ∧ s < startSample + num then 0 else buffer.data c s }

/-- Store through a write pointer: `getWritePointer (channel)[sample] = value`. -/
def AudioBuffer.write (buffer : AudioBuffer) (channel sample : ℕ) (value : ℝ) : AudioBuffer :=
  { buffer with
    data := fun c s => if c = channel ∧ s = sample then value else buffer.data c s }

/-- The loop `for (i = totalNumInputChannels; i < totalNumOutputChannels; ++i)
buffer.clear (i, 0, buffer.getNumSamples())`, started at channel `i` with
`count` iterations left. -/
def clearUnusedOutputs (buffer : AudioBuffer) : ℕ → ℕ → AudioBuffer
  | _, 0 => buffer
  | i, count + 1 => clearUnusedOutputs (buffer.clear i 0 buffer.numSamples) (i + 1) count

/-- Body of the sample loop of `processBlock` (source lines 147-178) at index
`sample`.  `channelDataR` is non-null exactly when
`totalNumInputChannels > 1`.  Both dry samples are read before anything is
written.  With a null `channelDataR` the source sets `wetR = wetL` and stores
it nowhere: the right filter memory and channel 1 stay as they are. -/
def processSample (smoothedDrive smoothedMix : ℕ → ℝ) (sample : ℕ)
    (pb : Processor × AudioBuffer) : Processor × AudioBuffer :=
  let proc := pb.1
  let buffer := pb.2
  let currentDrive := smoothedDrive sample
  let currentMix := smoothedMix sample
  let dryL := buffer.data 0 sample
  let dryR := if 1 < proc.totalNumInputChannels then buffer.data 1 sample else dryL
  let preL := processPreEmphasis proc.currentSampleRate dryL currentDrive proc.midBoostStateL
  let wetL := processSaturation preL.1 currentDrive * calculateMakeupGain currentDrive
  if 1 < proc.totalNumInputChannels then
    let preR := processPreEmphasis proc.currentSampleRate dryR currentDrive proc.midBoostStateR
    let wetR := processSaturation preR.1 currentDrive * calculateMakeupGain currentDrive
    ({ proc with midBoostStateL := preL.2, midBoostStateR := preR.2 },
      (buffer.write 0 sample (dryL * (1 - currentMix) + wetL * currentMix)).write 1 sample
        (dryR * (1 - currentMix) + wetR * currentMix))
  else
    let _wetR := wetL
    ({ proc with midBoostStateL := preL.2 },
      buffer.write 0 sample (dryL * (1 - currentMix) + wetL * currentMix))

/-- The sample loop of `processBlock`: the processor and buffer after the
iterations `sample = 0, ..., k - 1`. -/
def sampleLoop (smoothedDrive smoothedMix : ℕ → ℝ) :
    ℕ → Processor × AudioBuffer → Processor × AudioBuffer
  | 0, pb => pb
  | k + 1, pb => processSample smoothedDrive smoothedMix k (sampleLoop smoothedDrive smoothedMix k pb)

/-- `VT2BBlackProcessor::processBlock`.  `smoothedDrive i` and `smoothedMix i`
are the values returned by `smoothedDrive.getNextValue()` and
`smoothedMix.getNextValue()` at sample index `i` of this block. -/
def processBlock (proc : Processor) (smoothedDrive smoothedMix : ℕ → ℝ)
    (buffer : AudioBuffer) : Processor × AudioBuffer :=
  let cleared := clearUnusedOutputs buffer proc.totalNumInputChannels
    (proc.totalNumOutputChannels - proc.totalNumInputChannels)
  sampleLoop smoothedDrive smoothedMix buffer.numSamples (proc, cleared)

/-- `VT2BBlackProcessor::prepareToPlay` (the two smoother resets act on the
JUCE smoothers, which are outside this record). -/
def prepareToPlay (proc : Processor) (sampleRate : ℝ) (_samplesPerBlock : ℤ) : Processor :=
  { proc with
    currentSampleRate := sampleRate
    midBoostStateL := { z1 := 0, z2 := 0 }
    midBoostStateR := { z1 := 0, z2 := 0 }
    lastInL := 0
    lastInR := 0 }

/-! ## Per-channel view of the sample loop

These three functions describe one channel on its own: the filter memory
before each sample, the wet sample and the crossfaded sample.  They are built
from the source functions above; the lemmas of the next sections show that the
in-place loop of `processBlock` computes exactly these values. -/

/-- Filter memory of a channel with input `x` and initial memory `s0` after its
first `k` samples have gone through `processPreEmphasis`. -/
def filterStateAt (sampleRate : ℝ) (smoothedDrive x : ℕ → ℝ) (s0 : FilterState) :
    ℕ → FilterState
  | 0 => s0
  | k + 1 =>
    (processPreEmphasis sampleRate (x k) (smoothedDrive k)
      (filterStateAt sampleRate smoothedDrive x s0 k)).2

/-- Wet sample `i` of a channel: pre-emphasis, saturation, makeup gain. -/
def wetSample (sampleRate : ℝ) (smoothedDrive x : ℕ → ℝ) (s0 : FilterState) (i : ℕ) : ℝ :=
  processSaturation
      (processPreEmphasis sampleRate (x i) (smoothedDrive i)
        (filterStateAt sampleRate smoothedDrive x s0 i)).1 (smoothedDrive i) *
    calculateMakeupGain (smoothedDrive i)

/-- Crossfaded sample `i` of a channel: `dry * (1 - mix) + wet * mix`. -/
def mixedSample (sampleRate : ℝ) (smoothedDrive smoothedMix x : ℕ → ℝ) (s0 : FilterState)
    (i : ℕ) : ℝ :=
  x i * (1 - smoothedMix i) + wetSample sampleRate smoothedDrive x s0 i * smoothedMix i

/-- What the first `k` iterations of the sample loop leave behind, in terms of
the per-channel view. -/
structure LoopSpec (drv mix : ℕ → ℝ) (k : ℕ) (pb r : Processor × AudioBuffer) : Prop where
  nIn : r.1.totalNumInputChannels = pb.1.totalNumInputChannels
  nOut : r.1.totalNumOutputChannels = pb.1.totalNumOutputChannels
  rate : r.1.currentSampleRate = pb.1.currentSampleRate
  nCh : r.2.numChannels = pb.2.numChannels
  nSm : r.2.numSamples = pb.2.numSamples
  stL : r.1.midBoostStateL =
    filterStateAt pb.1.currentSampleRate drv (pb.2.data 0) pb.1.midBoostStateL k
  stR : r.1.midBoostStateR =
    if 1 < pb.1.totalNumInputChannels then
      filterStateAt pb.1.currentSampleRate drv (pb.2.data 1) pb.1.midBoostStateR k
    else pb.1.midBoostStateR
  dat : ∀ c i, r.2.data c i =
    if c = 0 ∧ i < k then
      mixedSample pb.1.currentSampleRate drv mix (pb.2.data 0) pb.1.midBoostStateL i
    else if c = 1 ∧ i < k ∧ 1 < pb.1.totalNumInputChannels then
      mixedSample pb.1.currentSampleRate drv mix (pb.2.data 1) pb.1.midBoostStateR i
    else pb.2.data c i

/-! ## Coefficient design, frequency response and the flush invariant -/

/-- The six coefficients of `processPreEmphasis` before the division by `a0`
(the `double` locals `b0, b1, b2, a0, a1, a2` of the source). -/
structure RawCoeffs where
  b0 : ℝ
  b1 : ℝ
  b2 : ℝ
  a0 : ℝ
  a1 : ℝ
  a2 : ℝ

/-- The angle `w0` of `processPreEmphasis` (source lines 201-202). -/
def preEmphasisW0 (currentSampleRate : ℝ) : ℝ :=
  2 * Real.pi * VT2RConstants.kPreEmphasisFreq / currentSampleRate

/-- Source lines 188-210 of `processPreEmphasis`: the un-normalised
coefficients, with the same locals as `preEmphasisCoeffs`. -/
def preEmphasisRawCoeffs (currentSampleRate drive : ℝ) : RawCoeffs :=
  let normDrive := drive / 100
  let gainDb := normDrive * VT2RConstants.kMaxPreEmphasisGainDb
  let A := (10 : ℝ) ^ (gainDb / 40)
  let w0 := 2 * Real.pi * VT2RConstants.kPreEmphasisFreq / currentSampleRate
  let alpha := Real.sin w0 / (2 * VT2RConstants.kPreEmphasisQ)
  { b0 := 1 + alpha * A
    b1 := -2 * Real.cos w0
    b2 := 1 - alpha * A
    a0 := 1 + alpha / A
    a1 := -2 * Real.cos w0
    a2 := 1 - alpha / A }

/-- Reference design, written from the wording of the specification and not
from the source: the Audio EQ Cookbook peaking filter for sample rate `fs`,
centre frequency `f0`, quality `Q` and gain `gainDb` in dB, with
`A = 10^(gainDb/40)`, `w0 = 2 pi f0 / fs`, `alpha = sin w0 / (2 Q)`,
`b0 = 1 + alpha A`, `b1 = a1 = -2 cos w0`, `b2 = 1 - alpha A`,
`a0 = 1 + alpha / A`, `a2 = 1 - alpha / A`, all divided by `a0`. -/
def cookbookPeaking (fs f0 Q gainDb : ℝ) : Coeffs :=
  let A := (10 : ℝ) ^ (gainDb / 40)
  let w0 := 2 * Real.pi * f0 / fs
  let alpha := Real.sin w0 / (2 * Q)
  let a0 := 1 + alpha / A
  { fb0 := (1 + alpha * A) / a0
    fb1 := -2 * Real.cos w0 / a0
    fb2 := (1 - alpha * A) / a0
    fa1 := -2 * Real.cos w0 / a0
    fa2 := (1 - alpha / A) / a0 }

/-- Transfer function of the recursion that `biquadProcess` runs with fixed
coefficients, `w[n] = x[n] - a1 w[n-1] - a2 w[n-2]`,
`y[n] = b0 w[n] + b1 w[n-1] + b2 w[n-2]`:
`H(z) = (b0 + b1 z⁻¹ + b2 z⁻²) / (1 + a1 z⁻¹ + a2 z⁻²)`. -/
def transferFunction (c : Coeffs) (z : ℂ) : ℂ :=
  ((c.fb0 : ℂ) + (c.fb1 : ℂ) * z⁻¹ + (c.fb2 : ℂ) * z⁻¹ ^ 2) /
    (1 + (c.fa1 : ℂ) * z⁻¹ + (c.fa2 : ℂ) * z⁻¹ ^ 2)

/-- The denormal-flush invariant of a filter memory: each cell is exactly 0 or
has magnitude at least `flushThreshold`, the value of `1e-20f`. -/
def Flushed (s : FilterState) : Prop :=
  (s.z1 = 0 ∨ flushThreshold ≤ |s.z1|) ∧ (s.z2 = 0 ∨ flushThreshold ≤ |s.z2|)

/-! ## Binary32 and binary64 reading of the sample chain

Where a statement is decided by rounding, the chain is read a second time
with every arithmetic operation rounded as the C++ types prescribe: `float`
operations round to binary32, `double` operations to binary64, a `float` used
in a `double` expression is promoted without change, and `float(...)` rounds a
`double` to binary32.  Rounding is to nearest; the rule for ties is left
open, so every statement holds for the IEEE rule (ties to even) in particular.
`std::tanh`, `std::sin`, `std::cos` and `std::pow` are taken to return the
nearest representable number to the exact value.  The operations are
evaluated one by one (no fused multiply-add), and overflow is outside this
reading: a result beyond the largest finite number rounds to that number. -/

/-- Numbers of a binary format: `m * 2^e` with an integer significand
`|m| < 2^p` and the exponent of the last place in `emin ≤ e ≤ emax`. -/
def IsBin (p : ℕ) (emin emax : ℤ) (f : ℝ) : Prop :=
  ∃ m e : ℤ, |m| < 2 ^ p ∧ emin ≤ e ∧ e ≤ emax ∧ f = (m : ℝ) * (2 : ℝ) ^ e

/-- The finite binary32 numbers (`float`): 24-bit significand, last-place
exponent from -149 to 104. -/
def IsF32 (f : ℝ) : Prop := IsBin 24 (-149) 104 f

/-- The finite binary64 numbers (`double`): 53-bit significand, last-place
exponent from -1074 to 971. -/
def IsF64 (f : ℝ) : Prop := IsBin 53 (-1074) 971 f

/-- A round-to-nearest operator onto the numbers satisfying `Rep`. -/
structure Nearest (Rep : ℝ → Prop) where
  rnd : ℝ → ℝ
  rep : ∀ y, Rep (rnd y)
  near : ∀ y f, Rep f → |y - rnd y| ≤ |y - f|

/-- A round-to-nearest operator exists for every binary format: the format is
a finite set, so every real has a nearest element. -/
def nearestBin (p : ℕ) (emin emax : ℤ) (h : emin ≤ emax) : Nearest (IsBin p emin emax) :=
  have ex : ∀ y : ℝ, ∃ r : ℝ, IsBin p emin emax r ∧
      ∀ f, IsBin p emin emax f → |y - r| ≤ |y - f| := by
    intro y
    have hne : (Finset.Ioo (-(2 : ℤ) ^ p) ((2 : ℤ) ^ p) ×ˢ Finset.Icc emin emax).Nonempty := by
      refine ⟨(0, emin), ?_⟩
      rw [Finset.mem_product, Finset.mem_Ioo, Finset.mem_Icc]
      have hp : (0 : ℤ) < 2 ^ p := by positivity
      exact ⟨⟨neg_lt_zero.mpr hp, hp⟩, le_refl _, h⟩
    obtain ⟨q, hq, hmin⟩ := Finset.exists_min_image _
      (fun q : ℤ × ℤ => |y - (q.1 : ℝ) * (2 : ℝ) ^ q.2|) hne
    rw [Finset.mem_product, Finset.mem_Ioo, Finset.mem_Icc] at hq
    refine ⟨(q.1 : ℝ) * (2 : ℝ) ^ q.2,
      ⟨q.1, q.2, abs_lt.mpr ⟨hq.1.1, hq.1.2⟩, hq.2.1, hq.2.2, rfl⟩, ?_⟩
    rintro f ⟨m, e, hm, he1, he2, rfl⟩
    apply hmin (m, e)
    rw [Finset.mem_product, Finset.mem_Ioo, Finset.mem_Icc]
    exact ⟨⟨(abs_lt.mp hm).1, (abs_lt.mp hm).2⟩, he1, he2⟩
  { rnd := fun y => Classical.choose (ex y)
    rep := fun y => (Classical.choose_spec (ex y)).1
    near := fun y => (Classical.choose_spec (ex y)).2 }

/-- A round-to-nearest operator onto binary32. -/
def nearestF32 : Nearest IsF32 := nearestBin 24 (-149) 104 (by norm_num)

/-- A round-to-nearest operator onto binary64. -/
def nearestF64 : Nearest IsF64 := nearestBin 53 (-1074) 971 (by norm_num)

/-- `processSaturation` in binary32 (source lines 250-268). -/
def processSaturationF (R : Nearest IsF32) (input drive : ℝ) : ℝ :=
  let normDrive := R.rnd (drive / 100)
  let inputGain := R.rnd (1 + R.rnd (normDrive * 8))
  let x := R.rnd (input * inputGain)
  R.rnd (Real.tanh x)

/-- Coefficient part of `processPreEmphasis` (source lines 188-217) with its
`float` and `double` roundings.  `kPreEmphasisQ` is `0.7f`, the binary32
number nearest to 0.7, and `pi` the binary64 number nearest to π. -/
def preEmphasisCoeffsF (R : Nearest IsF32) (D : Nearest IsF64)
    (currentSampleRate drive : ℝ) : Coeffs :=
  let normDrive := R.rnd (drive / 100)
  let gainDb := R.rnd (normDrive * VT2RConstants.kMaxPreEmphasisGainDb)
  let A := D.rnd ((10 : ℝ) ^ D.rnd (gainDb / 40))
  let w0 := D.rnd (D.rnd (D.rnd (2 * D.rnd Real.pi) * VT2RConstants.kPreEmphasisFreq) /
    currentSampleRate)
  let alpha := D.rnd (D.rnd (Real.sin w0) / D.rnd (2 * R.rnd VT2RConstants.kPreEmphasisQ))
  let b0 := D.rnd (1 + D.rnd (alpha * A))
  let b1 := D.rnd (-2 * D.rnd (Real.cos w0))
  let b2 := D.rnd (1 - D.rnd (alpha * A))
  let a0 := D.rnd (1 + D.rnd (alpha / A))
  let a1 := D.rnd (-2 * D.rnd (Real.cos w0))
  let a2 := D.rnd (1 - D.rnd (alpha / A))
  { fb0 := R.rnd (D.rnd (b0 / a0))
    fb1 := R.rnd (D.rnd (b1 / a0))
    fb2 := R.rnd (D.rnd (b2 / a0))
    fa1 := R.rnd (D.rnd (a1 / a0))
    fa2 := R.rnd (D.rnd (a2 / a0)) }

/-- Filter part of `processPreEmphasis` (source lines 219-247) in binary32.
Sums and differences associate to the left, as in C++. -/
def biquadProcessF (R : Nearest IsF32) (c : Coeffs) (input : ℝ) (state : FilterState) :
    ℝ × FilterState :=
  let _outputDF1 :=
    R.rnd (R.rnd (R.rnd (R.rnd (R.rnd (c.fb0 * input) + R.rnd (c.fb1 * state.z1)) +
      R.rnd (c.fb2 * state.z2)) - R.rnd (c.fa1 * state.z1)) - R.rnd (c.fa2 * state.z2))
  let w := R.rnd (R.rnd (input - R.rnd (c.fa1 * state.z1)) - R.rnd (c.fa2 * state.z2))
  let output := R.rnd (R.rnd (R.rnd (c.fb0 * w) + R.rnd (c.fb1 * state.z1)) +
    R.rnd (c.fb2 * state.z2))
  let wFlushed := if |w| < flushThreshold then 0 else w
  (output, { z1 := wFlushed, z2 := state.z1 })

/-- `processPreEmphasis` in binary32 and binary64. -/
def processPreEmphasisF (R : Nearest IsF32) (D : Nearest IsF64)
    (currentSampleRate input drive : ℝ) (state : FilterState) : ℝ × FilterState :=
  biquadProcessF R (preEmphasisCoeffsF R D currentSampleRate drive) input state

/-- A mono processor at 44100 Hz, as the constructor initialises the DSP
members (`currentSampleRate = 44100`, zero filter memory). -/
def monoProcessor : Processor :=
  { totalNumInputChannels := 1
    totalNumOutputChannels := 1
    currentSampleRate := 44100
    midBoostStateL := { z1 := 0, z2 := 0 }
    midBoostStateR := { z1 := 0, z2 := 0 }
    lastInL := 0
    lastInR := 0 }

/-- A stereo processor at 44100 Hz with zero filter memory. -/
def stereoProcessor : Processor :=
  { monoProcessor with totalNumInputChannels := 2, totalNumOutputChannels := 2 }

/-- One-channel block of one sample holding the value 1. -/
def impulseBlock : AudioBuffer :=
  { numChannels := 1, numSamples := 1, data := fun c s => if c = 0 ∧ s = 0 then 1 else 0 }

/-- One-channel block of one sample holding the value 0. -/
def silentBlock : AudioBuffer :=
  { numChannels := 1, numSamples := 1, data := fun _ _ => 0 }

/-- Smoothed drive settled at 100. -/
def fullDrive : ℕ → ℝ := fun _ => 100

/-- Smoothed mix fraction settled at 1 (mix parameter 100). -/
def fullMix : ℕ → ℝ := fun _ => 1

/-- A stereo processor at 48000 Hz whose filter memories still hold values
from earlier audio. -/
def ringingProcessor : Processor :=
  { stereoProcessor with
    currentSampleRate := 48000
    midBoostStateL := { z1 := 1, z2 := 0 }
    midBoostStateR := { z1 := 1 / 2, z2 := -1 / 4 } }

/-- The stereo processor at 44100 Hz with ringing right filter memory. -/
def rightRingingProcessor : Processor :=
  { stereoProcessor with midBoostStateR := { z1 := 1 / 2, z2 := -1 / 4 } }

/-- Two-channel block of four samples, all zero. -/
def silentStereoBlock : AudioBuffer :=
  { numChannels := 2, numSamples := 4, data := fun _ _ => 0 }

/-- Two-channel block of one sample holding the value 1 on both channels. -/
def stereoImpulseBlock : AudioBuffer :=
  { numChannels := 2, numSamples := 1, data := fun c s => if c < 2 ∧ s = 0 then 1 else 0 }

/-- Two-channel block of one sample: 1 on the left, 0 on the right. -/
def leftImpulseBlock : AudioBuffer :=
  { numChannels := 2, numSamples := 1, data := fun c s => if c = 0 ∧ s = 0 then 1 else 0 }

/-- Smoothed mix fraction settled at 0. -/
def zeroMix : ℕ → ℝ := fun _ => 0

/-! ## Auxiliary facts about the real functions used by the chain -/

theorem abs_tanh_lt_one (y : ℝ) : |Real.tanh y| < 1 := by
  have hc : 0 < Real.cosh y := Real.cosh_pos y
  have h1 : Real.cosh y - Real.sinh y = Real.exp (-y) := Real.cosh_sub_sinh y
  have h2 : Real.cosh y + Real.sinh y = Real.exp y := Real.cosh_add_sinh y
  have e1 : 0 < Real.exp (-y) := Real.exp_pos _
  have e2 : 0 < Real.exp y := Real.exp_pos _
  rw [Real.tanh_eq_sinh_div_cosh, abs_div, abs_of_pos hc, div_lt_one hc, abs_lt]
  constructor <;> linarith

theorem tanh_eq_zero_iff (y : ℝ) : Real.tanh y = 0 ↔ y = 0 := by
  rw [Real.tanh_eq_sinh_div_cosh, div_eq_zero_iff]
  constructor
  · rintro (h | h)
    · exact Real.sinh_eq_zero.mp h
    · exact absurd h (Real.cosh_pos y).ne'
  · intro h
    exact Or.inl (Real.sinh_eq_zero.mpr h)

theorem makeupGain_pos_le_one (d : ℝ) (h0 : 0 ≤ d) :
    0 < calculateMakeupGain d ∧ calculateMakeupGain d ≤ 1 := by
  have hden : 1 ≤ 1 + d / 100 * 4 := by linarith [div_nonneg h0 (by norm_num : (0 : ℝ) ≤ 100)]
  have hpos : 0 < 1 + d / 100 * 4 := by linarith
  unfold calculateMakeupGain
  refine ⟨by positivity, ?_⟩
  rw [div_le_one hpos]
  exact hden

/-! ## C2, C10 and the exact-arithmetic bound: the stateless stages -/

/-- In exact arithmetic, for every input sample `x` and every drive,
`processSaturation x drive` is `tanh (x * (1 + (drive/100)*8))` and its
magnitude is strictly less than 1. -/
theorem processSaturation_abs_lt_one (x drive : ℝ) :
    processSaturation x drive = Real.tanh (x * (1 + drive / 100 * 8)) ∧
      |processSaturation x drive| < 1 :=
  ⟨rfl, abs_tanh_lt_one _⟩

/-- C2. For drives `d1 ≤ d2` in `[0,100]`, `calculateMakeupGain` is
`1 / (1 + (drive/100)*4)`, its value at each of them lies in `(0, 1]`, and
`calculateMakeupGain d2 ≤ calculateMakeupGain d1`. -/
theorem calculateMakeupGain_range_antitone (d1 d2 : ℝ) (h0 : 0 ≤ d1) (h12 : d1 ≤ d2)
    (_h100 : d2 ≤ 100) :
    calculateMakeupGain d1 = 1 / (1 + d1 / 100 * 4) ∧
      (0 < calculateMakeupGain d1 ∧ calculateMakeupGain d1 ≤ 1) ∧
      (0 < calculateMakeupGain d2 ∧ calculateMakeupGain d2 ≤ 1) ∧
      calculateMakeupGain d2 ≤ calculateMakeupGain d1 := by
  refine ⟨rfl, makeupGain_pos_le_one d1 h0, makeupGain_pos_le_one d2 (h0.trans h12), ?_⟩
  have hpos : 0 < 1 + d1 / 100 * 4 := by
    linarith [div_nonneg h0 (by norm_num : (0 : ℝ) ≤ 100)]
  unfold calculateMakeupGain
  apply one_div_le_one_div_of_le hpos
  linarith [div_le_div_of_nonneg_right h12 (by norm_num : (0 : ℝ) ≤ 100)]

/-- Witness for C2 at `d1 = 0`, `d2 = 100`: the gain falls from 1 to 1/5. -/
theorem calculateMakeupGain_range_antitone_witness :
    ((0 : ℝ) ≤ 0 ∧ (0 : ℝ) ≤ 100 ∧ (100 : ℝ) ≤ 100) ∧
      calculateMakeupGain 0 = 1 / (1 + 0 / 100 * 4) ∧
      (0 < calculateMakeupGain 0 ∧ calculateMakeupGain 0 ≤ 1) ∧
      (0 < calculateMakeupGain 100 ∧ calculateMakeupGain 100 ≤ 1) ∧
      calculateMakeupGain 100 ≤ calculateMakeupGain 0 :=
  ⟨⟨le_refl 0, by norm_num, le_refl 100⟩,
    calculateMakeupGain_range_antitone 0 100 (le_refl 0) (by norm_num) (le_refl 100)⟩

/-- C10. `processSaturation` is odd in its input for every drive, and maps the
input 0 to 0. -/
theorem processSaturation_odd (x drive : ℝ) :
    processSaturation (-x) drive = -processSaturation x drive ∧
      processSaturation 0 drive = 0 := by
  unfold processSaturation
  constructor
  · simp only [neg_mul, Real.tanh_neg]
  · simp only [zero_mul, Real.tanh_zero]

/-! ## The sample loop, channel by channel -/

theorem filterStateAt_congr (sr : ℝ) (drv x y : ℕ → ℝ) (s0 : FilterState) (k : ℕ)
    (h : ∀ j, j < k → x j = y j) :
    filterStateAt sr drv x s0 k = filterStateAt sr drv y s0 k := by
  induction k with
  | zero => rfl
  | succ k ih =>
    have hk : filterStateAt sr drv x s0 k = filterStateAt sr drv y s0 k :=
      ih (fun j hj => h j (Nat.lt_succ_of_lt hj))
    simp only [filterStateAt, hk, h k (Nat.lt_succ_self k)]

theorem wetSample_congr (sr : ℝ) (drv x y : ℕ → ℝ) (s0 : FilterState) (i : ℕ)
    (h : ∀ j, j ≤ i → x j = y j) :
    wetSample sr drv x s0 i = wetSample sr drv y s0 i := by
  have hs : filterStateAt sr drv x s0 i = filterStateAt sr drv y s0 i :=
    filterStateAt_congr sr drv x y s0 i (fun j hj => h j (Nat.le_of_lt hj))
  simp only [wetSample, hs, h i (le_refl i)]

theorem mixedSample_congr (sr : ℝ) (drv mix x y : ℕ → ℝ) (s0 : FilterState) (i : ℕ)
    (h : ∀ j, j ≤ i → x j = y j) :
    mixedSample sr drv mix x s0 i = mixedSample sr drv mix y s0 i := by
  simp only [mixedSample, wetSample_congr sr drv x y s0 i h, h i (le_refl i)]

theorem processSample_stereo (drv mix : ℕ → ℝ) (k : ℕ) (pb : Processor × AudioBuffer)
    (h : 1 < pb.1.totalNumInputChannels) :
    processSample drv mix k pb =
      ({ pb.1 with
          midBoostStateL :=
            (processPreEmphasis pb.1.currentSampleRate (pb.2.data 0 k) (drv k)
              pb.1.midBoostStateL).2
          midBoostStateR :=
            (processPreEmphasis pb.1.currentSampleRate (pb.2.data 1 k) (drv k)
              pb.1.midBoostStateR).2 },
        (pb.2.write 0 k
          (pb.2.data 0 k * (1 - mix k) +
            processSaturation
                (processPreEmphasis pb.1.currentSampleRate (pb.2.data 0 k) (drv k)
                  pb.1.midBoostStateL).1 (drv k) *
              calculateMakeupGain (drv k) * mix k)).write 1 k
          (pb.2.data 1 k * (1 - mix k) +
            processSaturation
                (processPreEmphasis pb.1.currentSampleRate (pb.2.data 1 k) (drv k)
                  pb.1.midBoostStateR).1 (drv k) *
              calculateMakeupGain (drv k) * mix k)) := by
  simp only [processSample, if_pos h]

theorem processSample_mono (drv mix : ℕ → ℝ) (k : ℕ) (pb : Processor × AudioBuffer)
    (h : ¬ 1 < pb.1.totalNumInputChannels) :
    processSample drv mix k pb =
      ({ pb.1 with
          midBoostStateL :=
            (processPreEmphasis pb.1.currentSampleRate (pb.2.data 0 k) (drv k)
              pb.1.midBoostStateL).2 },
        pb.2.write 0 k
          (pb.2.data 0 k * (1 - mix k) +
            processSaturation
                (processPreEmphasis pb.1.currentSampleRate (pb.2.data 0 k) (drv k)
                  pb.1.midBoostStateL).1 (drv k) *
              calculateMakeupGain (drv k) * mix k)) := by
  simp only [processSample, if_neg h]

theorem sampleLoop_spec (drv mix : ℕ → ℝ) (k : ℕ) (pb : Processor × AudioBuffer) :
    LoopSpec drv mix k pb (sampleLoop drv mix k pb) := by
  induction k with
  | zero =>
    refine ⟨rfl, rfl, rfl, rfl, rfl, rfl, ?_, ?_⟩
    · simp [sampleLoop, filterStateAt]
    · intro c i
      simp [sampleLoop]
  | succ k ih =>
    obtain ⟨hIn, hOut, hRate, hCh, hSm, hL, hR, hD⟩ := ih
    have d0 : (sampleLoop drv mix k pb).2.data 0 k = pb.2.data 0 k := by
      rw [hD]; simp
    have d1 : (sampleLoop drv mix k pb).2.data 1 k = pb.2.data 1 k := by
      rw [hD]; simp
    have hlt : ∀ i, i ≠ k → (i < k + 1 ↔ i < k) := fun i hik => by omega
    by_cases hst : 1 < pb.1.totalNumInputChannels
    · have hst2 : 1 < (sampleLoop drv mix k pb).1.totalNumInputChannels := by rw [hIn]; exact hst
      rw [if_pos hst] at hR
      rw [sampleLoop, processSample_stereo drv mix k _ hst2]
      refine ⟨hIn, hOut, hRate, hCh, hSm, ?_, ?_, ?_⟩
      · simp only [hRate, hL, d0, filterStateAt]
      · simp only [hRate, hR, d1, filterStateAt, if_pos hst]
      · intro c i
        simp only [AudioBuffer.write, hD, hRate, hL, hR, d0, d1, hst, and_true]
        by_cases hc0 : c = 0
        · subst hc0
          by_cases hik : i = k
          · subst hik
            simp [mixedSample, wetSample]
          · simp [hik, hlt i hik]
        · by_cases hc1 : c = 1
          · subst hc1
            by_cases hik : i = k
            · subst hik
              simp [mixedSample, wetSample]
            · simp [hik, hlt i hik]
          · simp [hc0, hc1]
    · have hst2 : ¬ 1 < (sampleLoop drv mix k pb).1.totalNumInputChannels := by rw [hIn]; exact hst
      rw [if_neg hst] at hR
      rw [sampleLoop, processSample_mono drv mix k _ hst2]
      refine ⟨hIn, hOut, hRate, hCh, hSm, ?_, ?_, ?_⟩
      · simp only [hRate, hL, d0, filterStateAt]
      · simp only [hR, if_neg hst]
      · intro c i
        simp only [AudioBuffer.write, hD, hRate, hL, d0, hst, and_false, if_false]
        by_cases hc0 : c = 0
        · subst hc0
          by_cases hik : i = k
          · subst hik
            simp [mixedSample, wetSample]
          · simp [hik, hlt i hik]
        · simp [hc0]

theorem clearUnusedOutputs_spec (cnt : ℕ) (buffer : AudioBuffer) (i0 : ℕ) :
    (clearUnusedOutputs buffer i0 cnt).numChannels = buffer.numChannels ∧
      (clearUnusedOutputs buffer i0 cnt).numSamples = buffer.numSamples ∧
      ∀ c s, (clearUnusedOutputs buffer i0 cnt).data c s =
        if i0 ≤ c ∧ c < i0 + cnt ∧ s < buffer.numSamples then 0 else buffer.data c s := by
  induction cnt generalizing buffer i0 with
  | zero =>
    refine ⟨rfl, rfl, fun c s => ?_⟩
    have : ¬ (i0 ≤ c ∧ c < i0 + 0 ∧ s < buffer.numSamples) := by omega
    simp only [clearUnusedOutputs, if_neg this]
  | succ cnt ih =>
    obtain ⟨h1, h2, h3⟩ := ih (buffer.clear i0 0 buffer.numSamples) (i0 + 1)
    refine ⟨h1, h2, fun c s => ?_⟩
    rw [clearUnusedOutputs, h3]
    simp only [AudioBuffer.clear]
    by_cases hs : s < buffer.numSamples
    · by_cases hc : c = i0
      · subst hc
        simp [hs]
      · have e : (i0 + 1 ≤ c ∧ c < i0 + 1 + cnt ∧ s < buffer.numSamples) ↔
            (i0 ≤ c ∧ c < i0 + (cnt + 1) ∧ s < buffer.numSamples) := by omega
        simp only [e, hc, false_and, if_false]
    · simp [hs]

/-- Channel 0 of the block `processBlock` returns, when there is at least one
input channel. -/
theorem processBlock_data_left (p : Processor) (drv mix : ℕ → ℝ) (b : AudioBuffer)
    (hin : 1 ≤ p.totalNumInputChannels) (i : ℕ) (hi : i < b.numSamples) :
    (processBlock p drv mix b).2.data 0 i =
      mixedSample p.currentSampleRate drv mix (b.data 0) p.midBoostStateL i := by
  have hc := (clearUnusedOutputs_spec (p.totalNumOutputChannels - p.totalNumInputChannels) b
    p.totalNumInputChannels).2.2
  have hs := (sampleLoop_spec drv mix b.numSamples (p, clearUnusedOutputs b
    p.totalNumInputChannels (p.totalNumOutputChannels - p.totalNumInputChannels))).dat 0 i
  simp only [processBlock]
  rw [hs]
  simp only [true_and, if_pos hi]
  apply mixedSample_congr
  intro j _
  rw [hc]
  have : ¬ (p.totalNumInputChannels ≤ 0 ∧
      0 < p.totalNumInputChannels + (p.totalNumOutputChannels - p.totalNumInputChannels) ∧
      j < b.numSamples) := by omega
  rw [if_neg this]

/-- Channel 1 of the block `processBlock` returns, when there are at least two
input channels. -/
theorem processBlock_data_right (p : Processor) (drv mix : ℕ → ℝ) (b : AudioBuffer)
    (hin : 1 < p.totalNumInputChannels) (i : ℕ) (hi : i < b.numSamples) :
    (processBlock p drv mix b).2.data 1 i =
      mixedSample p.currentSampleRate drv mix (b.data 1) p.midBoostStateR i := by
  have hc := (clearUnusedOutputs_spec (p.totalNumOutputChannels - p.totalNumInputChannels) b
    p.totalNumInputChannels).2.2
  have hs := (sampleLoop_spec drv mix b.numSamples (p, clearUnusedOutputs b
    p.totalNumInputChannels (p.totalNumOutputChannels - p.totalNumInputChannels))).dat 1 i
  simp only [processBlock]
  rw [hs]
  have h1 : ¬ ((1 : ℕ) = 0 ∧ i < b.numSamples) := by omega
  have h2 : (1 : ℕ) = 1 ∧ i < b.numSamples ∧ 1 < p.totalNumInputChannels := ⟨rfl, hi, hin⟩
  rw [if_neg h1, if_pos h2]
  apply mixedSample_congr
  intro j _
  rw [hc]
  have : ¬ (p.totalNumInputChannels ≤ 1 ∧
      1 < p.totalNumInputChannels + (p.totalNumOutputChannels - p.totalNumInputChannels) ∧
      j < b.numSamples) := by omega
  rw [if_neg this]

/-- Left filter memory after `processBlock`, when there is at least one input
channel. -/
theorem processBlock_state_left (p : Processor) (drv mix : ℕ → ℝ) (b : AudioBuffer)
    (hin : 1 ≤ p.totalNumInputChannels) :
    (processBlock p drv mix b).1.midBoostStateL =
      filterStateAt p.currentSampleRate drv (b.data 0) p.midBoostStateL b.numSamples := by
  have hc := (clearUnusedOutputs_spec (p.totalNumOutputChannels - p.totalNumInputChannels) b
    p.totalNumInputChannels).2.2
  have hs := (sampleLoop_spec drv mix b.numSamples (p, clearUnusedOutputs b
    p.totalNumInputChannels (p.totalNumOutputChannels - p.totalNumInputChannels))).stL
  simp only [processBlock]
  rw [hs]
  apply filterStateAt_congr
  intro j _
  rw [hc]
  have : ¬ (p.totalNumInputChannels ≤ 0 ∧
      0 < p.totalNumInputChannels + (p.totalNumOutputChannels - p.totalNumInputChannels) ∧
      j < b.numSamples) := by omega
  rw [if_neg this]

/-- Right filter memory after `processBlock`, when there are at least two input
channels. -/
theorem processBlock_state_right (p : Processor) (drv mix : ℕ → ℝ) (b : AudioBuffer)
    (hin : 1 < p.totalNumInputChannels) :
    (processBlock p drv mix b).1.midBoostStateR =
      filterStateAt p.currentSampleRate drv (b.data 1) p.midBoostStateR b.numSamples := by
  have hc := (clearUnusedOutputs_spec (p.totalNumOutputChannels - p.totalNumInputChannels) b
    p.totalNumInputChannels).2.2
  have hs := (sampleLoop_spec drv mix b.numSamples (p, clearUnusedOutputs b
    p.totalNumInputChannels (p.totalNumOutputChannels - p.totalNumInputChannels))).stR
  simp only [processBlock]
  rw [hs, if_pos hin]
  apply filterStateAt_congr
  intro j _
  rw [hc]
  have : ¬ (p.totalNumInputChannels ≤ 1 ∧
      1 < p.totalNumInputChannels + (p.totalNumOutputChannels - p.totalNumInputChannels) ∧
      j < b.numSamples) := by omega
  rw [if_neg this]

/-! ## Silence -/

theorem flushThreshold_pos : 0 < flushThreshold := by
  simp only [flushThreshold]
  norm_num

theorem biquadProcess_zero (c : Coeffs) :
    biquadProcess c 0 { z1 := 0, z2 := 0 } = (0, { z1 := 0, z2 := 0 }) := by
  simp [biquadProcess, flushThreshold_pos]

theorem processPreEmphasis_zero (sr d : ℝ) :
    processPreEmphasis sr 0 d { z1 := 0, z2 := 0 } = (0, { z1 := 0, z2 := 0 }) := by
  rw [processPreEmphasis, biquadProcess_zero]

theorem filterStateAt_zero (sr : ℝ) (drv x : ℕ → ℝ) (k : ℕ) (hx : ∀ j, j < k → x j = 0) :
    filterStateAt sr drv x { z1 := 0, z2 := 0 } k = { z1 := 0, z2 := 0 } := by
  induction k with
  | zero => rfl
  | succ k ih =>
    rw [filterStateAt, ih (fun j hj => hx j (Nat.lt_succ_of_lt hj)), hx k (Nat.lt_succ_self k),
      processPreEmphasis_zero]

theorem mixedSample_zero (sr : ℝ) (drv mix x : ℕ → ℝ) (i : ℕ) (hx : ∀ j, j ≤ i → x j = 0) :
    mixedSample sr drv mix x { z1 := 0, z2 := 0 } i = 0 := by
  rw [mixedSample, wetSample, filterStateAt_zero sr drv x i (fun j hj => hx j (Nat.le_of_lt hj)),
    hx i (le_refl i), processPreEmphasis_zero]
  simp [processSaturation]

/-- A block that is zero on all its channels and samples, processed from zero
filter memory, stays zero and leaves the filter memory zero. -/
theorem processBlock_zero_aux (p : Processor) (drv mix : ℕ → ℝ) (b : AudioBuffer)
    (hL : p.midBoostStateL = { z1 := 0, z2 := 0 })
    (hR : 1 < p.totalNumInputChannels → p.midBoostStateR = { z1 := 0, z2 := 0 })
    (hch : 1 ≤ b.numChannels) (hin : p.totalNumInputChannels ≤ b.numChannels)
    (hz : ∀ c i, c < b.numChannels → i < b.numSamples → b.data c i = 0) :
    (∀ c i, c < b.numChannels → i < b.numSamples → (processBlock p drv mix b).2.data c i = 0) ∧
      (processBlock p drv mix b).1.midBoostStateL = { z1 := 0, z2 := 0 } ∧
      (processBlock p drv mix b).1.midBoostStateR =
        if 1 < p.totalNumInputChannels then { z1 := 0, z2 := 0 } else p.midBoostStateR := by
  have hc := (clearUnusedOutputs_spec (p.totalNumOutputChannels - p.totalNumInputChannels) b
    p.totalNumInputChannels).2.2
  have cz : ∀ c i, c < b.numChannels → i < b.numSamples →
      (clearUnusedOutputs b p.totalNumInputChannels
        (p.totalNumOutputChannels - p.totalNumInputChannels)).data c i = 0 := by
    intro c i hc1 hi1
    rw [hc]
    split_ifs
    · rfl
    · exact hz c i hc1 hi1
  have hs := sampleLoop_spec drv mix b.numSamples (p, clearUnusedOutputs b
    p.totalNumInputChannels (p.totalNumOutputChannels - p.totalNumInputChannels))
  simp only [processBlock]
  refine ⟨?_, ?_, ?_⟩
  · intro c i hc1 hi1
    rw [hs.dat]
    simp only []
    split_ifs with h0 h1
    · rw [hL]
      exact mixedSample_zero _ _ _ _ _ (fun j hj => cz 0 j hch (by omega))
    · rw [hR h1.2.2]
      exact mixedSample_zero _ _ _ _ _ (fun j hj => cz 1 j (by omega) (by omega))
    · exact cz c i hc1 hi1
  · rw [hs.stL]
    simp only []
    rw [hL]
    exact filterStateAt_zero _ _ _ _ (fun j hj => cz 0 j hch hj)
  · rw [hs.stR]
    simp only []
    split_ifs with h1
    · rw [hR h1]
      exact filterStateAt_zero _ _ _ _ (fun j hj => cz 1 j (by omega) hj)
    · rfl

/-! ## The filter rings after an impulse -/

theorem processBlock_rate (p : Processor) (drv mix : ℕ → ℝ) (b : AudioBuffer) :
    (processBlock p drv mix b).1.currentSampleRate = p.currentSampleRate ∧
      (processBlock p drv mix b).1.totalNumInputChannels = p.totalNumInputChannels ∧
      (processBlock p drv mix b).1.totalNumOutputChannels = p.totalNumOutputChannels :=
  let hs := sampleLoop_spec drv mix b.numSamples (p, clearUnusedOutputs b
    p.totalNumInputChannels (p.totalNumOutputChannels - p.totalNumInputChannels))
  ⟨hs.rate, hs.nIn, hs.nOut⟩

theorem biquadProcess_unit_memory (c : Coeffs) :
    (biquadProcess c 0 { z1 := 1, z2 := 0 }).1 = c.fa1 * (1 - c.fb0) + (c.fb1 - c.fa1) := by
  simp only [biquadProcess]
  ring

theorem biquadProcess_impulse (c : Coeffs) :
    (biquadProcess c 1 { z1 := 0, z2 := 0 }).2 = { z1 := 1, z2 := 0 } := by
  have h : ¬ (|(1 : ℝ) - c.fa1 * 0 - c.fa2 * 0| < flushThreshold) := by
    simp only [flushThreshold]
    norm_num
  simp only [biquadProcess, if_neg h]
  norm_num

theorem ring_at_full_drive : (processPreEmphasis 44100 0 100 { z1 := 1, z2 := 0 }).1 ≠ 0 := by
  have hA : (1 : ℝ) < (10 : ℝ) ^ ((100 : ℝ) / 100 * 9 / 40) :=
    Real.one_lt_rpow (by norm_num) (by norm_num)
  have hw0 : (0 : ℝ) < 2 * Real.pi * 2000 / 44100 := by positivity
  have hw1 : 2 * Real.pi * 2000 / 44100 < Real.pi / 2 := by
    linarith [Real.pi_pos]
  have hsin : 0 < Real.sin (2 * Real.pi * 2000 / 44100) :=
    Real.sin_pos_of_pos_of_lt_pi hw0 (by linarith [Real.pi_pos])
  have hcos : 0 < Real.cos (2 * Real.pi * 2000 / 44100) :=
    Real.cos_pos_of_mem_Ioo ⟨by linarith [Real.pi_pos], hw1⟩
  rw [processPreEmphasis, biquadProcess_unit_memory]
  simp only [preEmphasisCoeffs, VT2RConstants.kMaxPreEmphasisGainDb,
    VT2RConstants.kPreEmphasisFreq, VT2RConstants.kPreEmphasisQ, sub_self, add_zero]
  generalize (10 : ℝ) ^ ((100 : ℝ) / 100 * 9 / 40) = A at hA ⊢
  generalize Real.sin (2 * Real.pi * 2000 / 44100) = sn at hsin ⊢
  generalize Real.cos (2 * Real.pi * 2000 / 44100) = cs at hcos ⊢
  have hApos : 0 < A := by linarith
  have hal : 0 < sn / (2 * 0.7) := by positivity
  have ha0 : 0 < 1 + sn / (2 * 0.7) / A := by positivity
  have hlt : sn / (2 * 0.7) / A < sn / (2 * 0.7) * A := by
    have hAA : 1 < A * A := by nlinarith
    have hmul := mul_lt_mul_of_pos_left hAA hal
    rw [div_lt_iff₀ hApos]
    linarith
  have e : -2 * cs / (1 + sn / (2 * 0.7) / A) *
      (1 - (1 + sn / (2 * 0.7) * A) / (1 + sn / (2 * 0.7) / A)) =
      (2 * cs) * (sn / (2 * 0.7) * A - sn / (2 * 0.7) / A) / (1 + sn / (2 * 0.7) / A) ^ 2 := by
    field_simp
    ring
  rw [e]
  have : 0 < (2 * cs) * (sn / (2 * 0.7) * A - sn / (2 * 0.7) / A) /
      (1 + sn / (2 * 0.7) / A) ^ 2 := by
    apply div_pos
    · apply mul_pos (by linarith)
      linarith
    · positivity
  exact this.ne'

/-! ## C3, C4: silence in, silence out -/

/-- C3, as stated, fails. After `prepareToPlay` at 44100 Hz, a mono block
holding the single sample 1 (drive 100, mix fraction 1) leaves the left filter
memory at `z1 = 1`; the all-zero block processed next, at the same settings,
gets a non-zero sample written to channel 0. -/
theorem silence_fails_after_impulse :
    (∀ c i, silentBlock.data c i = 0) ∧
      (processBlock
          (processBlock (prepareToPlay monoProcessor 44100 512) fullDrive fullMix
            impulseBlock).1
          fullDrive fullMix silentBlock).2.data 0 0 ≠ 0 := by
  refine ⟨fun _ _ => rfl, ?_⟩
  have hr := processBlock_rate (prepareToPlay monoProcessor 44100 512) fullDrive fullMix
    impulseBlock
  have hst : (processBlock (prepareToPlay monoProcessor 44100 512) fullDrive fullMix
      impulseBlock).1.midBoostStateL = { z1 := 1, z2 := 0 } := by
    rw [processBlock_state_left _ _ _ _ (le_refl 1)]
    show (processPreEmphasis 44100 (impulseBlock.data 0 0) (fullDrive 0) { z1 := 0, z2 := 0 }).2 =
      { z1 := 1, z2 := 0 }
    simp only [impulseBlock, and_self, if_true, processPreEmphasis, biquadProcess_impulse]
  have hin : 1 ≤ (processBlock (prepareToPlay monoProcessor 44100 512) fullDrive fullMix
      impulseBlock).1.totalNumInputChannels := by
    rw [hr.2.1]
    exact le_refl 1
  rw [processBlock_data_left _ _ _ _ hin 0 Nat.one_pos, hr.1, hst]
  show silentBlock.data 0 0 * (1 - fullMix 0) +
    processSaturation (processPreEmphasis 44100 (silentBlock.data 0 0) (fullDrive 0)
      { z1 := 1, z2 := 0 }).1 (fullDrive 0) * calculateMakeupGain (fullDrive 0) * fullMix 0 ≠ 0
  simp only [silentBlock, fullMix, fullDrive, zero_mul, zero_add, mul_one]
  apply mul_ne_zero
  · intro h
    rw [processSaturation, tanh_eq_zero_iff] at h
    rcases mul_eq_zero.mp h with h | h
    · exact ring_at_full_drive h
    · norm_num at h
  · exact (makeupGain_pos_le_one 100 (by norm_num)).1.ne'

/-- C3, amended. With the left filter memory zero at block entry (and the right
one too when a second input channel is processed), `processBlock` applied to an
all-zero block returns an all-zero block on every channel, for every smoothed
drive and mix sequence. -/
theorem processBlock_silence_from_zero_memory (p : Processor) (drv mix : ℕ → ℝ)
    (b : AudioBuffer)
    (hL : p.midBoostStateL = { z1 := 0, z2 := 0 })
    (hR : 1 < p.totalNumInputChannels → p.midBoostStateR = { z1 := 0, z2 := 0 })
    (hch : 1 ≤ b.numChannels) (hin : p.totalNumInputChannels ≤ b.numChannels)
    (hz : ∀ c i, c < b.numChannels → i < b.numSamples → b.data c i = 0) :
    ∀ c i, c < b.numChannels → i < b.numSamples → (processBlock p drv mix b).2.data c i = 0 :=
  (processBlock_zero_aux p drv mix b hL hR hch hin hz).1

/-- Witness for C3 amended: the mono processor with zero memory on the one-sample
silent block, drive 100 and mix fraction 1. -/
theorem processBlock_silence_from_zero_memory_witness :
    (monoProcessor.midBoostStateL = { z1 := 0, z2 := 0 } ∧
        (1 < monoProcessor.totalNumInputChannels →
          monoProcessor.midBoostStateR = { z1 := 0, z2 := 0 }) ∧
        1 ≤ silentBlock.numChannels ∧
        monoProcessor.totalNumInputChannels ≤ silentBlock.numChannels ∧
        ∀ c i, c < silentBlock.numChannels → i < silentBlock.numSamples →
          silentBlock.data c i = 0) ∧
      ∀ c i, c < silentBlock.numChannels → i < silentBlock.numSamples →
        (processBlock monoProcessor fullDrive fullMix silentBlock).2.data c i = 0 :=
  ⟨⟨rfl, fun _ => rfl, le_refl 1, le_refl 1, fun _ _ _ _ => rfl⟩,
    processBlock_silence_from_zero_memory monoProcessor fullDrive fullMix silentBlock rfl
      (fun _ => rfl) (le_refl 1) (le_refl 1) (fun _ _ _ _ => rfl)⟩

/-- C4. For every prior processor state and positive sample rate,
`prepareToPlay` zeroes both filter memories; a following `processBlock` on an
all-zero block, with smoothed drive in `[0,100]` and any mix, writes 0 to every
sample of every channel and leaves both filter memories zero. -/
theorem prepareToPlay_then_silence (p : Processor) (sampleRate : ℝ) (samplesPerBlock : ℤ)
    (drv mix : ℕ → ℝ) (b : AudioBuffer)
    (_hsr : 0 < sampleRate) (_hdrv : ∀ i, 0 ≤ drv i ∧ drv i ≤ 100)
    (hch : 1 ≤ b.numChannels) (hin : p.totalNumInputChannels ≤ b.numChannels)
    (hz : ∀ c i, c < b.numChannels → i < b.numSamples → b.data c i = 0) :
    ((prepareToPlay p sampleRate samplesPerBlock).midBoostStateL = { z1 := 0, z2 := 0 } ∧
        (prepareToPlay p sampleRate samplesPerBlock).midBoostStateR = { z1 := 0, z2 := 0 }) ∧
      (∀ c i, c < b.numChannels → i < b.numSamples →
        (processBlock (prepareToPlay p sampleRate samplesPerBlock) drv mix b).2.data c i = 0) ∧
      (processBlock (prepareToPlay p sampleRate samplesPerBlock) drv mix b).1.midBoostStateL =
        { z1 := 0, z2 := 0 } ∧
      (processBlock (prepareToPlay p sampleRate samplesPerBlock) drv mix b).1.midBoostStateR =
        { z1 := 0, z2 := 0 } := by
  have h := processBlock_zero_aux (prepareToPlay p sampleRate samplesPerBlock) drv mix b rfl
    (fun _ => rfl) hch hin hz
  refine ⟨⟨rfl, rfl⟩, h.1, h.2.1, ?_⟩
  rw [h.2.2]
  split_ifs <;> rfl

/-- Witness for C4: the stereo processor with ringing filter memory, prepared
at 48000 Hz, then run on the four-sample silent stereo block at drive 100. -/
theorem prepareToPlay_then_silence_witness :
    ((0 : ℝ) < 48000 ∧ (∀ i, 0 ≤ fullDrive i ∧ fullDrive i ≤ 100) ∧
        1 ≤ silentStereoBlock.numChannels ∧
        ringingProcessor.totalNumInputChannels ≤ silentStereoBlock.numChannels ∧
        ∀ c i, c < silentStereoBlock.numChannels → i < silentStereoBlock.numSamples →
          silentStereoBlock.data c i = 0) ∧
      ((prepareToPlay ringingProcessor 48000 512).midBoostStateL = { z1 := 0, z2 := 0 } ∧
        (prepareToPlay ringingProcessor 48000 512).midBoostStateR = { z1 := 0, z2 := 0 }) ∧
      (∀ c i, c < silentStereoBlock.numChannels → i < silentStereoBlock.numSamples →
        (processBlock (prepareToPlay ringingProcessor 48000 512) fullDrive fullMix
          silentStereoBlock).2.data c i = 0) ∧
      (processBlock (prepareToPlay ringingProcessor 48000 512) fullDrive fullMix
        silentStereoBlock).1.midBoostStateL = { z1 := 0, z2 := 0 } ∧
      (processBlock (prepareToPlay ringingProcessor 48000 512) fullDrive fullMix
        silentStereoBlock).1.midBoostStateR = { z1 := 0, z2 := 0 } :=
  have h1 : (0 : ℝ) < 48000 := by norm_num
  have h2 : ∀ i, 0 ≤ fullDrive i ∧ fullDrive i ≤ 100 := fun _ => by
    simp only [fullDrive]
    norm_num
  have h3 : 1 ≤ silentStereoBlock.numChannels := by decide
  have h4 : ringingProcessor.totalNumInputChannels ≤ silentStereoBlock.numChannels := by decide
  have h5 : ∀ c i, c < silentStereoBlock.numChannels → i < silentStereoBlock.numSamples →
      silentStereoBlock.data c i = 0 := fun _ _ _ _ => rfl
  ⟨⟨h1, h2, h3, h4, h5⟩,
    prepareToPlay_then_silence ringingProcessor 48000 512 fullDrive fullMix silentStereoBlock
      h1 h2 h3 h4 h5⟩

/-! ## C5: the crossfade, and the output bound in exact arithmetic -/

theorem mixedSample_mix_zero (sr : ℝ) (drv mix x : ℕ → ℝ) (s0 : FilterState) (i : ℕ)
    (h : mix i = 0) : mixedSample sr drv mix x s0 i = x i := by
  rw [mixedSample, h]
  ring

theorem mixedSample_mix_one (sr : ℝ) (drv mix x : ℕ → ℝ) (s0 : FilterState) (i : ℕ)
    (h : mix i = 1) :
    mixedSample sr drv mix x s0 i =
      calculateMakeupGain (drv i) *
        processSaturation
          (processPreEmphasis sr (x i) (drv i) (filterStateAt sr drv x s0 i)).1 (drv i) := by
  rw [mixedSample, wetSample, h]
  ring

/-- C5. For every sample `i` of a block and each processed channel: when the
smoothed mix fraction at `i` is 0 the output sample equals the dry input
sample; when it is 1 the output sample equals the wet signal
`makeupGain(drive) * saturate(preEmphasis(dry))`, the filter being in the state
its channel reached after the samples before `i`. No condition on the drive or
on the initial filter memory. -/
theorem processBlock_mix_extremes (p : Processor) (drv mix : ℕ → ℝ) (b : AudioBuffer) (i : ℕ)
    (hi : i < b.numSamples) (hin : 1 ≤ p.totalNumInputChannels) :
    (mix i = 0 →
        (processBlock p drv mix b).2.data 0 i = b.data 0 i ∧
          (1 < p.totalNumInputChannels →
            (processBlock p drv mix b).2.data 1 i = b.data 1 i)) ∧
      (mix i = 1 →
        (processBlock p drv mix b).2.data 0 i =
            calculateMakeupGain (drv i) *
              processSaturation
                (processPreEmphasis p.currentSampleRate (b.data 0 i) (drv i)
                  (filterStateAt p.currentSampleRate drv (b.data 0) p.midBoostStateL i)).1
                (drv i) ∧
          (1 < p.totalNumInputChannels →
            (processBlock p drv mix b).2.data 1 i =
              calculateMakeupGain (drv i) *
                processSaturation
                  (processPreEmphasis p.currentSampleRate (b.data 1 i) (drv i)
                    (filterStateAt p.currentSampleRate drv (b.data 1) p.midBoostStateR i)).1
                  (drv i))) := by
  refine ⟨fun h0 => ⟨?_, fun h2 => ?_⟩, fun h1 => ⟨?_, fun h2 => ?_⟩⟩
  · rw [processBlock_data_left p drv mix b hin i hi, mixedSample_mix_zero _ _ _ _ _ _ h0]
  · rw [processBlock_data_right p drv mix b h2 i hi, mixedSample_mix_zero _ _ _ _ _ _ h0]
  · rw [processBlock_data_left p drv mix b hin i hi, mixedSample_mix_one _ _ _ _ _ _ h1]
  · rw [processBlock_data_right p drv mix b h2 i hi, mixedSample_mix_one _ _ _ _ _ _ h1]

/-- Witness for C5: the ringing stereo processor on the stereo impulse block at
sample 0; with mix fraction 0 both channels keep the dry sample 1. -/
theorem processBlock_mix_extremes_witness :
    (0 < stereoImpulseBlock.numSamples ∧ 1 ≤ ringingProcessor.totalNumInputChannels) ∧
      (processBlock ringingProcessor fullDrive zeroMix stereoImpulseBlock).2.data 0 0 = 1 ∧
      (processBlock ringingProcessor fullDrive zeroMix stereoImpulseBlock).2.data 1 0 = 1 :=
  have h := (processBlock_mix_extremes ringingProcessor fullDrive zeroMix stereoImpulseBlock 0
    Nat.one_pos (by decide)).1 rfl
  ⟨⟨Nat.one_pos, by decide⟩, h.1, h.2 (by decide)⟩

/-- C8. Take a mono run (one input channel) on the samples `x` and a stereo run
(two input channels) on `(x, x)`, with the same sample rate, the same smoothed
drive and mix values, and the stereo left and right filter memories both equal
to the mono left memory. Then channel 0 of the mono result equals channel 0 of
the stereo result at every sample, and in the stereo result channel 1 equals
channel 0 at every sample. -/
theorem mono_run_matches_stereo_run (pm ps : Processor) (drv mix : ℕ → ℝ)
    (bm bs : AudioBuffer)
    (hm : pm.totalNumInputChannels = 1) (hs : ps.totalNumInputChannels = 2)
    (hrate : ps.currentSampleRate = pm.currentSampleRate)
    (hn : bs.numSamples = bm.numSamples)
    (hx0 : ∀ i, i < bm.numSamples → bs.data 0 i = bm.data 0 i)
    (hx1 : ∀ i, i < bm.numSamples → bs.data 1 i = bm.data 0 i)
    (hstL : ps.midBoostStateL = pm.midBoostStateL)
    (hstR : ps.midBoostStateR = pm.midBoostStateL) :
    ∀ i, i < bm.numSamples →
      (processBlock pm drv mix bm).2.data 0 i = (processBlock ps drv mix bs).2.data 0 i ∧
        (processBlock ps drv mix bs).2.data 1 i = (processBlock ps drv mix bs).2.data 0 i := by
  intro i hi
  have his : i < bs.numSamples := by rw [hn]; exact hi
  have e0 : (processBlock ps drv mix bs).2.data 0 i =
      mixedSample pm.currentSampleRate drv mix (bm.data 0) pm.midBoostStateL i := by
    rw [processBlock_data_left ps drv mix bs (by omega) i his, hrate, hstL]
    exact mixedSample_congr _ _ _ _ _ _ _ (fun j hj => hx0 j (by omega))
  have e1 : (processBlock ps drv mix bs).2.data 1 i =
      mixedSample pm.currentSampleRate drv mix (bm.data 0) pm.midBoostStateL i := by
    rw [processBlock_data_right ps drv mix bs (by omega) i his, hrate, hstR]
    exact mixedSample_congr _ _ _ _ _ _ _ (fun j hj => hx1 j (by omega))
  rw [e0, e1, processBlock_data_left pm drv mix bm (by omega) i hi]
  exact ⟨rfl, rfl⟩

/-- Witness for C8: the mono processor on the impulse block against the stereo
processor on the stereo impulse block, at drive 100 and mix fraction 1. -/
theorem mono_run_matches_stereo_run_witness :
    (monoProcessor.totalNumInputChannels = 1 ∧ stereoProcessor.totalNumInputChannels = 2 ∧
        stereoProcessor.currentSampleRate = monoProcessor.currentSampleRate ∧
        stereoImpulseBlock.numSamples = impulseBlock.numSamples ∧
        (∀ i, i < impulseBlock.numSamples →
          stereoImpulseBlock.data 0 i = impulseBlock.data 0 i) ∧
        (∀ i, i < impulseBlock.numSamples →
          stereoImpulseBlock.data 1 i = impulseBlock.data 0 i) ∧
        stereoProcessor.midBoostStateL = monoProcessor.midBoostStateL ∧
        stereoProcessor.midBoostStateR = monoProcessor.midBoostStateL) ∧
      ((processBlock monoProcessor fullDrive fullMix impulseBlock).2.data 0 0 =
          (processBlock stereoProcessor fullDrive fullMix stereoImpulseBlock).2.data 0 0 ∧
        (processBlock stereoProcessor fullDrive fullMix stereoImpulseBlock).2.data 1 0 =
          (processBlock stereoProcessor fullDrive fullMix stereoImpulseBlock).2.data 0 0) :=
  have h5 : ∀ i, i < impulseBlock.numSamples →
      stereoImpulseBlock.data 0 i = impulseBlock.data 0 i := by
    intro i hi
    have : i = 0 := Nat.lt_one_iff.mp hi
    subst this
    rfl
  have h6 : ∀ i, i < impulseBlock.numSamples →
      stereoImpulseBlock.data 1 i = impulseBlock.data 0 i := by
    intro i hi
    have : i = 0 := Nat.lt_one_iff.mp hi
    subst this
    rfl
  ⟨⟨rfl, rfl, rfl, rfl, h5, h6, rfl, rfl⟩,
    mono_run_matches_stereo_run monoProcessor stereoProcessor fullDrive fullMix impulseBlock
      stereoImpulseBlock rfl rfl rfl rfl h5 h6 rfl rfl 0 Nat.one_pos⟩

/-- C9. Two stereo runs with the same sample rate, block length and smoothed
drive and mix values. If they agree on the left input samples and the initial
left filter memory, their left output samples and final left filter memory are
equal, whatever the right inputs and right memories are; and the same with left
and right exchanged. -/
theorem processBlock_no_crosstalk (p q : Processor) (drv mix : ℕ → ℝ) (bp bq : AudioBuffer)
    (hp : 1 < p.totalNumInputChannels) (hq : 1 < q.totalNumInputChannels)
    (hrate : p.currentSampleRate = q.currentSampleRate)
    (hn : bp.numSamples = bq.numSamples) :
    ((∀ i, i < bp.numSamples → bp.data 0 i = bq.data 0 i) →
        p.midBoostStateL = q.midBoostStateL →
        (∀ i, i < bp.numSamples →
          (processBlock p drv mix bp).2.data 0 i = (processBlock q drv mix bq).2.data 0 i) ∧
        (processBlock p drv mix bp).1.midBoostStateL =
          (processBlock q drv mix bq).1.midBoostStateL) ∧
      ((∀ i, i < bp.numSamples → bp.data 1 i = bq.data 1 i) →
        p.midBoostStateR = q.midBoostStateR →
        (∀ i, i < bp.numSamples →
          (processBlock p drv mix bp).2.data 1 i = (processBlock q drv mix bq).2.data 1 i) ∧
        (processBlock p drv mix bp).1.midBoostStateR =
          (processBlock q drv mix bq).1.midBoostStateR) := by
  constructor
  · intro hx hst
    constructor
    · intro i hi
      rw [processBlock_data_left p drv mix bp (by omega) i hi,
        processBlock_data_left q drv mix bq (by omega) i (by omega), hrate, hst]
      exact mixedSample_congr _ _ _ _ _ _ _ (fun j hj => hx j (by omega))
    · rw [processBlock_state_left p drv mix bp (by omega),
        processBlock_state_left q drv mix bq (by omega), hrate, hst, hn]
      exact filterStateAt_congr _ _ _ _ _ _ (fun j hj => hx j (by omega))
  · intro hx hst
    constructor
    · intro i hi
      rw [processBlock_data_right p drv mix bp hp i hi,
        processBlock_data_right q drv mix bq hq i (by omega), hrate, hst]
      exact mixedSample_congr _ _ _ _ _ _ _ (fun j hj => hx j (by omega))
    · rw [processBlock_state_right p drv mix bp hp,
        processBlock_state_right q drv mix bq hq, hrate, hst, hn]
      exact filterStateAt_congr _ _ _ _ _ _ (fun j hj => hx j (by omega))

/-- Witness for C9: the stereo processor on the stereo impulse block against
the same processor with ringing right memory on the left-only impulse block.
The runs differ in the right input sample and the right filter memory, and
their left output and final left memory coincide. -/
theorem processBlock_no_crosstalk_witness :
    (1 < stereoProcessor.totalNumInputChannels ∧
        1 < rightRingingProcessor.totalNumInputChannels ∧
        stereoProcessor.currentSampleRate = rightRingingProcessor.currentSampleRate ∧
        stereoImpulseBlock.numSamples = leftImpulseBlock.numSamples ∧
        (∀ i, i < stereoImpulseBlock.numSamples →
          stereoImpulseBlock.data 0 i = leftImpulseBlock.data 0 i) ∧
        stereoProcessor.midBoostStateL = rightRingingProcessor.midBoostStateL) ∧
      stereoImpulseBlock.data 1 0 ≠ leftImpulseBlock.data 1 0 ∧
      (processBlock stereoProcessor fullDrive fullMix stereoImpulseBlock).2.data 0 0 =
        (processBlock rightRingingProcessor fullDrive fullMix leftImpulseBlock).2.data 0 0 ∧
      (processBlock stereoProcessor fullDrive fullMix stereoImpulseBlock).1.midBoostStateL =
        (processBlock rightRingingProcessor fullDrive fullMix leftImpulseBlock).1.midBoostStateL :=
  have h1 : 1 < stereoProcessor.totalNumInputChannels := by decide
  have h2 : 1 < rightRingingProcessor.totalNumInputChannels := by decide
  have h5 : ∀ i, i < stereoImpulseBlock.numSamples →
      stereoImpulseBlock.data 0 i = leftImpulseBlock.data 0 i := by
    intro i hi
    have : i = 0 := Nat.lt_one_iff.mp hi
    subst this
    rfl
  have hne : stereoImpulseBlock.data 1 0 ≠ leftImpulseBlock.data 1 0 := by
    show (if (1 : ℕ) < 2 ∧ (0 : ℕ) = 0 then (1 : ℝ) else 0) ≠
      (if (1 : ℕ) = 0 ∧ (0 : ℕ) = 0 then (1 : ℝ) else 0)
    norm_num
  have h := (processBlock_no_crosstalk stereoProcessor rightRingingProcessor fullDrive fullMix
    stereoImpulseBlock leftImpulseBlock h1 h2 rfl rfl).1 h5 rfl
  ⟨⟨h1, h2, rfl, rfl, h5, rfl⟩, hne, h.1 0 Nat.one_pos, h.2⟩

/-! ## C14: stability of the recursion -/

theorem preEmphasisW0_range (sr : ℝ) (hsr : 4000 < sr) :
    0 < preEmphasisW0 sr ∧ preEmphasisW0 sr < Real.pi := by
  have hpos : (0 : ℝ) < sr := by linarith
  have hpi := Real.pi_pos
  simp only [preEmphasisW0, VT2RConstants.kPreEmphasisFreq]
  constructor
  · positivity
  · rw [div_lt_iff₀ hpos]
    nlinarith

/-- The locals `A` and `alpha` of `processPreEmphasis` are positive above
4000 Hz, and the raw coefficients are the expressions in them. -/
theorem preEmphasis_locals (sr drive : ℝ) (hsr : 4000 < sr) :
    ∃ A alpha : ℝ, 0 < A ∧ 0 < alpha ∧
      A = (10 : ℝ) ^ (drive / 100 * 9 / 40) ∧
      alpha = Real.sin (preEmphasisW0 sr) / (2 * 0.7) ∧
      preEmphasisRawCoeffs sr drive =
        { b0 := 1 + alpha * A
          b1 := -2 * Real.cos (preEmphasisW0 sr)
          b2 := 1 - alpha * A
          a0 := 1 + alpha / A
          a1 := -2 * Real.cos (preEmphasisW0 sr)
          a2 := 1 - alpha / A } := by
  obtain ⟨h0, h1⟩ := preEmphasisW0_range sr hsr
  have hsin : 0 < Real.sin (preEmphasisW0 sr) := Real.sin_pos_of_pos_of_lt_pi h0 h1
  refine ⟨(10 : ℝ) ^ (drive / 100 * 9 / 40), Real.sin (preEmphasisW0 sr) / (2 * 0.7),
    Real.rpow_pos_of_pos (by norm_num) _, by positivity, rfl, rfl, ?_⟩
  simp only [preEmphasisRawCoeffs, preEmphasisW0, VT2RConstants.kMaxPreEmphasisGainDb,
    VT2RConstants.kPreEmphasisQ]

theorem preEmphasisCoeffs_eq_normalised (sr drive : ℝ) :
    preEmphasisCoeffs sr drive =
      { fb0 := (preEmphasisRawCoeffs sr drive).b0 / (preEmphasisRawCoeffs sr drive).a0
        fb1 := (preEmphasisRawCoeffs sr drive).b1 / (preEmphasisRawCoeffs sr drive).a0
        fb2 := (preEmphasisRawCoeffs sr drive).b2 / (preEmphasisRawCoeffs sr drive).a0
        fa1 := (preEmphasisRawCoeffs sr drive).a1 / (preEmphasisRawCoeffs sr drive).a0
        fa2 := (preEmphasisRawCoeffs sr drive).a2 / (preEmphasisRawCoeffs sr drive).a0 } :=
  rfl

theorem abs_cos_lt_one_of_sin_pos (t : ℝ) (h : 0 < Real.sin t) : |Real.cos t| < 1 := by
  have hsq := Real.sin_sq_add_cos_sq t
  rw [abs_lt]
  constructor <;> nlinarith

/-- Stability triangle: a real monic quadratic `z² + a1 z + a2` with `|a2| < 1`
and `|a1| < 1 + a2` has all its complex roots strictly inside the unit circle. -/
theorem roots_inside_unit_circle (a1 a2 : ℝ) (h2 : |a2| < 1) (h1 : |a1| < 1 + a2) (z : ℂ)
    (hz : z ^ 2 + (a1 : ℂ) * z + (a2 : ℂ) = 0) : Complex.abs z < 1 := by
  have hre : z.re * z.re - z.im * z.im + a1 * z.re + a2 = 0 := by
    have := congrArg Complex.re hz
    simpa [pow_two] using this
  have him : z.re * z.im + z.im * z.re + a1 * z.im = 0 := by
    have := congrArg Complex.im hz
    simpa [pow_two] using this
  obtain ⟨h2l, h2u⟩ := abs_lt.mp h2
  obtain ⟨h1l, h1u⟩ := abs_lt.mp h1
  have hn : Complex.normSq z < 1 := by
    rw [Complex.normSq_apply]
    by_cases hy : z.im = 0
    · rw [hy] at hre ⊢
      have hx : z.re * z.re + a1 * z.re + a2 = 0 := by linarith
      by_contra hcon
      push_neg at hcon
      have hx1 : 1 ≤ z.re * z.re := by linarith
      rcases le_or_lt 0 z.re with hp | hp
      · have hge : 1 ≤ z.re := by nlinarith
        nlinarith
      · have hle : z.re ≤ -1 := by nlinarith
        nlinarith
    · have hx : 2 * z.re + a1 = 0 := by
        have : z.im * (2 * z.re + a1) = 0 := by linarith
        rcases mul_eq_zero.mp this with h | h
        · exact absurd h hy
        · exact h
      have : z.re * z.re + z.im * z.im = a2 := by nlinarith
      linarith
  rw [Complex.abs_apply, Real.sqrt_lt' one_pos]
  simpa using hn

theorem feedback_bounds (t c : ℝ) (ht : 0 < t) (hc : |c| < 1) :
    |(1 - t) / (1 + t)| < 1 ∧ |-2 * c / (1 + t)| < 1 + (1 - t) / (1 + t) := by
  have hpos : 0 < 1 + t := by linarith
  obtain ⟨hcl, hcu⟩ := abs_lt.mp hc
  have e : 1 + (1 - t) / (1 + t) = 2 / (1 + t) := by
    field_simp
    ring
  constructor
  · rw [abs_lt]
    constructor
    · rw [lt_div_iff₀ hpos]
      linarith
    · rw [div_lt_iff₀ hpos]
      linarith
  · rw [e, abs_lt]
    constructor
    · rw [← neg_div, div_lt_div_iff_of_pos_right hpos]
      linarith
    · rw [div_lt_div_iff_of_pos_right hpos]
      linarith

/-- C14. For drive in `[0,100]` and a sample rate above 4000 Hz: `0 < w0 < pi`,
the divisor `a0 = 1 + alpha/A` is not zero, the normalised feedback
coefficients satisfy `|a2/a0| < 1` and `|a1/a0| < 1 + a2/a0`, and every complex
root of `z² + (a1/a0) z + a2/a0`, that is every pole of the recursion
`w[n] = x[n] - a1 w[n-1] - a2 w[n-2]`, lies strictly inside the unit circle. -/
theorem preEmphasis_feedback_stable (sampleRate drive : ℝ) (_hd0 : 0 ≤ drive)
    (_hd1 : drive ≤ 100) (hsr : 4000 < sampleRate) :
    (0 < preEmphasisW0 sampleRate ∧ preEmphasisW0 sampleRate < Real.pi) ∧
      (preEmphasisRawCoeffs sampleRate drive).a0 ≠ 0 ∧
      |(preEmphasisCoeffs sampleRate drive).fa2| < 1 ∧
      |(preEmphasisCoeffs sampleRate drive).fa1| <
        1 + (preEmphasisCoeffs sampleRate drive).fa2 ∧
      ∀ z : ℂ,
        z ^ 2 + ((preEmphasisCoeffs sampleRate drive).fa1 : ℂ) * z +
            ((preEmphasisCoeffs sampleRate drive).fa2 : ℂ) = 0 →
          Complex.abs z < 1 := by
  obtain ⟨h0, h1⟩ := preEmphasisW0_range sampleRate hsr
  have hsin : 0 < Real.sin (preEmphasisW0 sampleRate) := Real.sin_pos_of_pos_of_lt_pi h0 h1
  have hcos := abs_cos_lt_one_of_sin_pos _ hsin
  obtain ⟨A, alpha, hA, hal, -, -, hraw⟩ := preEmphasis_locals sampleRate drive hsr
  have ht : 0 < alpha / A := div_pos hal hA
  obtain ⟨b2, b1⟩ := feedback_bounds (alpha / A) (Real.cos (preEmphasisW0 sampleRate)) ht hcos
  have hfa2 : (preEmphasisCoeffs sampleRate drive).fa2 = (1 - alpha / A) / (1 + alpha / A) := by
    rw [preEmphasisCoeffs_eq_normalised, hraw]
  have hfa1 : (preEmphasisCoeffs sampleRate drive).fa1 =
      -2 * Real.cos (preEmphasisW0 sampleRate) / (1 + alpha / A) := by
    rw [preEmphasisCoeffs_eq_normalised, hraw]
  have ha0 : (preEmphasisRawCoeffs sampleRate drive).a0 = 1 + alpha / A := by
    rw [hraw]
  refine ⟨⟨h0, h1⟩, ?_, ?_, ?_, ?_⟩
  · rw [ha0]
    exact (by linarith : (0 : ℝ) < 1 + alpha / A).ne'
  · rw [hfa2]
    exact b2
  · rw [hfa1, hfa2]
    exact b1
  · intro z hz
    rw [hfa1, hfa2] at hz
    exact roots_inside_unit_circle _ _ b2 b1 z hz

/-- Witness for C14 at 44100 Hz and drive 100. -/
theorem preEmphasis_feedback_stable_witness :
    ((0 : ℝ) ≤ 100 ∧ (100 : ℝ) ≤ 100 ∧ (4000 : ℝ) < 44100) ∧
      (preEmphasisRawCoeffs 44100 100).a0 ≠ 0 ∧
      |(preEmphasisCoeffs 44100 100).fa2| < 1 ∧
      |(preEmphasisCoeffs 44100 100).fa1| < 1 + (preEmphasisCoeffs 44100 100).fa2 ∧
      ∀ z : ℂ,
        z ^ 2 + ((preEmphasisCoeffs 44100 100).fa1 : ℂ) * z +
            ((preEmphasisCoeffs 44100 100).fa2 : ℂ) = 0 →
          Complex.abs z < 1 :=
  have h1 : (0 : ℝ) ≤ 100 := by norm_num
  have h2 : (100 : ℝ) ≤ 100 := le_refl _
  have h3 : (4000 : ℝ) < 44100 := by norm_num
  ⟨⟨h1, h2, h3⟩, (preEmphasis_feedback_stable 44100 100 h1 h2 h3).2⟩

/-! ## C13: the peaking design and its centre-frequency gain -/

theorem exp_mul_I_inv (w : ℝ) :
    (Complex.exp ((w : ℂ) * Complex.I))⁻¹ =
      (Real.cos w : ℂ) - (Real.sin w : ℂ) * Complex.I := by
  rw [← Complex.exp_neg, ← neg_mul, Complex.exp_mul_I, Complex.cos_neg, Complex.sin_neg,
    Complex.ofReal_cos, Complex.ofReal_sin]
  ring

/-- With `u = c - s i` on the unit circle, the numerator and the denominator of
a peaking section share the factor `u (2 s i)`. -/
theorem peaking_factor (beta c s : ℂ) (hcs : c ^ 2 + s ^ 2 = 1) :
    (1 + beta) - 2 * c * (c - s * Complex.I) + (1 - beta) * (c - s * Complex.I) ^ 2 =
      (c - s * Complex.I) * (2 * beta * s * Complex.I) := by
  linear_combination (-(1 + beta)) * hcs + ((1 + beta) * s ^ 2) * Complex.I_sq

theorem peaking_response_aux (a al c s a0 : ℂ) (ha : a ≠ 0) (hal : al ≠ 0) (hs : s ≠ 0)
    (ha0 : a0 ≠ 0) (ha0def : a0 = 1 + al / a) (hcs : c ^ 2 + s ^ 2 = 1) :
    ((1 + al * a) / a0 + -2 * c / a0 * (c - s * Complex.I) +
          (1 - al * a) / a0 * (c - s * Complex.I) ^ 2) /
        (1 + -2 * c / a0 * (c - s * Complex.I) +
          (1 - al / a) / a0 * (c - s * Complex.I) ^ 2) = a ^ 2 := by
  have hu : c - s * Complex.I ≠ 0 := by
    intro h
    have h1 : (c - s * Complex.I) * (c + s * Complex.I) = 1 := by
      linear_combination hcs - s ^ 2 * Complex.I_sq
    rw [h, zero_mul] at h1
    exact zero_ne_one h1
  have hnum : (1 + al * a) / a0 + -2 * c / a0 * (c - s * Complex.I) +
      (1 - al * a) / a0 * (c - s * Complex.I) ^ 2 =
      (c - s * Complex.I) * (2 * (al * a) * s * Complex.I) / a0 := by
    rw [← peaking_factor (al * a) c s hcs]
    ring
  have hden : 1 + -2 * c / a0 * (c - s * Complex.I) +
      (1 - al / a) / a0 * (c - s * Complex.I) ^ 2 =
      (c - s * Complex.I) * (2 * (al / a) * s * Complex.I) / a0 := by
    rw [← peaking_factor (al / a) c s hcs, eq_div_iff ha0, ← ha0def]
    field_simp
    ring
  have hI : Complex.I ≠ 0 := Complex.I_ne_zero
  have hd0 : (c - s * Complex.I) * (2 * (al / a) * s * Complex.I) / a0 ≠ 0 :=
    div_ne_zero
      (mul_ne_zero hu
        (mul_ne_zero (mul_ne_zero (mul_ne_zero two_ne_zero (div_ne_zero hal ha)) hs) hI))
      ha0
  rw [hnum, hden, div_eq_iff hd0]
  field_simp
  ring

theorem cookbook_gain_sq (drive : ℝ) :
    ((10 : ℝ) ^ (drive / 100 * 9 / 40)) ^ 2 = (10 : ℝ) ^ (9 * drive / 100 / 20) := by
  rw [← Real.rpow_natCast, ← Real.rpow_mul (by norm_num : (0 : ℝ) ≤ 10)]
  congr 1
  push_cast
  ring

/-- At the centre frequency the transfer function of the pre-emphasis
coefficients is the real number `A²`. -/
theorem transferFunction_at_centre (sr drive : ℝ) (hsr : 4000 < sr) :
    transferFunction (preEmphasisCoeffs sr drive)
        (Complex.exp ((preEmphasisW0 sr : ℂ) * Complex.I)) =
      (((10 : ℝ) ^ (9 * drive / 100 / 20) : ℝ) : ℂ) := by
  obtain ⟨h0, h1⟩ := preEmphasisW0_range sr hsr
  have hsin : 0 < Real.sin (preEmphasisW0 sr) := Real.sin_pos_of_pos_of_lt_pi h0 h1
  obtain ⟨A, alpha, hA, hal, hAdef, -, hraw⟩ := preEmphasis_locals sr drive hsr
  have ha0 : (0 : ℝ) < 1 + alpha / A := by
    have := div_pos hal hA
    linarith
  have hcs : ((Real.cos (preEmphasisW0 sr) : ℝ) : ℂ) ^ 2 +
      ((Real.sin (preEmphasisW0 sr) : ℝ) : ℂ) ^ 2 = 1 := by
    exact_mod_cast Real.cos_sq_add_sin_sq (preEmphasisW0 sr)
  have ha0c : (1 + (alpha : ℂ) / (A : ℂ)) ≠ 0 := by
    exact_mod_cast ha0.ne'
  have key := peaking_response_aux (A : ℂ) (alpha : ℂ) (Real.cos (preEmphasisW0 sr) : ℂ)
    (Real.sin (preEmphasisW0 sr) : ℂ) (1 + (alpha : ℂ) / (A : ℂ))
    (Complex.ofReal_ne_zero.mpr hA.ne') (Complex.ofReal_ne_zero.mpr hal.ne')
    (Complex.ofReal_ne_zero.mpr hsin.ne') ha0c rfl hcs
  rw [← cookbook_gain_sq, ← hAdef, preEmphasisCoeffs_eq_normalised, hraw]
  simp only [transferFunction]
  rw [exp_mul_I_inv]
  push_cast at key ⊢
  exact key

/-- A sinusoid at the centre frequency in steady state: with input `cos φ` and
the memory `(K sin φ, K sin (φ - w0))`, `K = 1 / ((1 - a2/a0) sin w0)`, one
filter step returns `A² cos φ`. -/
theorem centre_frequency_steady_state (sr drive : ℝ) (hsr : 4000 < sr) (φ : ℝ) :
    (processPreEmphasis sr (Real.cos φ) drive
        { z1 := 1 / ((1 - (preEmphasisCoeffs sr drive).fa2) * Real.sin (preEmphasisW0 sr)) *
            Real.sin φ
          z2 := 1 / ((1 - (preEmphasisCoeffs sr drive).fa2) * Real.sin (preEmphasisW0 sr)) *
            Real.sin (φ - preEmphasisW0 sr) }).1 =
      (10 : ℝ) ^ (9 * drive / 100 / 20) * Real.cos φ := by
  obtain ⟨h0, h1⟩ := preEmphasisW0_range sr hsr
  have hsin : 0 < Real.sin (preEmphasisW0 sr) := Real.sin_pos_of_pos_of_lt_pi h0 h1
  obtain ⟨A, alpha, hA, hal, hAdef, -, hraw⟩ := preEmphasis_locals sr drive hsr
  have ha0 : (0 : ℝ) < 1 + alpha / A := by
    have := div_pos hal hA
    linarith
  rw [← cookbook_gain_sq, ← hAdef, processPreEmphasis, preEmphasisCoeffs_eq_normalised, hraw]
  simp only [biquadProcess, Real.sin_sub]
  have hne : (1 : ℝ) + alpha / A ≠ 0 := ha0.ne'
  have hAne : A ≠ 0 := hA.ne'
  have halne : alpha ≠ 0 := hal.ne'
  have hsne : Real.sin (preEmphasisW0 sr) ≠ 0 := hsin.ne'
  have hk : (1 - (1 - alpha / A) / (1 + alpha / A)) * Real.sin (preEmphasisW0 sr) ≠ 0 := by
    apply mul_ne_zero _ hsne
    have : 1 - (1 - alpha / A) / (1 + alpha / A) = 2 * (alpha / A) / (1 + alpha / A) := by
      field_simp
      ring
    rw [this]
    exact div_ne_zero (mul_ne_zero two_ne_zero (div_ne_zero halne hAne)) hne
  generalize Real.sin (preEmphasisW0 sr) = s at hsne hk ⊢
  generalize Real.cos (preEmphasisW0 sr) = c
  generalize Real.sin φ = sp
  generalize Real.cos φ = cp
  have hk1 : 1 - (1 - alpha / A) / (1 + alpha / A) = 2 * alpha / (A * (1 + alpha / A)) := by
    field_simp
    ring
  rw [hk1]
  field_simp
  ring

/-- C13. For drive in `[0,100]` and a sample rate above 4000 Hz, the
coefficients of `processPreEmphasis` are the Audio EQ Cookbook peaking
coefficients for `f0 = 2000`, `Q = 0.7` and gain `9 * drive / 100` dB, divided
by `a0`. Their transfer function at `z = exp (i w0)`, `w0 = 2 pi 2000 / sampleRate`,
equals `10^(gainDb/20)`, so its magnitude is `10^(gainDb/20)` and its level in dB
is `9 * drive / 100`. On the code itself: a centre-frequency sinusoid in steady
state leaves `processPreEmphasis` scaled by `10^(gainDb/20)`. -/
theorem preEmphasis_peaking_response (sampleRate drive : ℝ) (_hd0 : 0 ≤ drive)
    (_hd1 : drive ≤ 100) (hsr : 4000 < sampleRate) :
    preEmphasisCoeffs sampleRate drive = cookbookPeaking sampleRate 2000 0.7 (9 * drive / 100) ∧
      preEmphasisW0 sampleRate = 2 * Real.pi * 2000 / sampleRate ∧
      transferFunction (preEmphasisCoeffs sampleRate drive)
          (Complex.exp ((preEmphasisW0 sampleRate : ℂ) * Complex.I)) =
        (((10 : ℝ) ^ (9 * drive / 100 / 20) : ℝ) : ℂ) ∧
      Complex.abs (transferFunction (preEmphasisCoeffs sampleRate drive)
          (Complex.exp ((preEmphasisW0 sampleRate : ℂ) * Complex.I))) =
        (10 : ℝ) ^ (9 * drive / 100 / 20) ∧
      20 * Real.logb 10 (Complex.abs (transferFunction (preEmphasisCoeffs sampleRate drive)
          (Complex.exp ((preEmphasisW0 sampleRate : ℂ) * Complex.I)))) = 9 * drive / 100 ∧
      ∀ φ : ℝ,
        (processPreEmphasis sampleRate (Real.cos φ) drive
            { z1 := 1 / ((1 - (preEmphasisCoeffs sampleRate drive).fa2) *
                  Real.sin (preEmphasisW0 sampleRate)) * Real.sin φ
              z2 := 1 / ((1 - (preEmphasisCoeffs sampleRate drive).fa2) *
                  Real.sin (preEmphasisW0 sampleRate)) *
                Real.sin (φ - preEmphasisW0 sampleRate) }).1 =
          (10 : ℝ) ^ (9 * drive / 100 / 20) * Real.cos φ := by
  have hH := transferFunction_at_centre sampleRate drive hsr
  have hpos : (0 : ℝ) < (10 : ℝ) ^ (9 * drive / 100 / 20) :=
    Real.rpow_pos_of_pos (by norm_num) _
  have habs : Complex.abs (transferFunction (preEmphasisCoeffs sampleRate drive)
      (Complex.exp ((preEmphasisW0 sampleRate : ℂ) * Complex.I))) =
      (10 : ℝ) ^ (9 * drive / 100 / 20) := by
    rw [hH, Complex.abs_ofReal, abs_of_pos hpos]
  refine ⟨?_, ?_, hH, habs, ?_, centre_frequency_steady_state sampleRate drive hsr⟩
  · have e : drive / 100 * 9 = 9 * drive / 100 := by ring
    simp only [preEmphasisCoeffs, cookbookPeaking, VT2RConstants.kMaxPreEmphasisGainDb,
      VT2RConstants.kPreEmphasisFreq, VT2RConstants.kPreEmphasisQ, e]
  · simp only [preEmphasisW0, VT2RConstants.kPreEmphasisFreq]
  · rw [habs, Real.logb_rpow (by norm_num) (by norm_num)]
    ring

/-- Witness for C13 at 44100 Hz: 0 dB at drive 0 and 9 dB at drive 100. -/
theorem preEmphasis_peaking_response_witness :
    ((0 : ℝ) ≤ 0 ∧ (0 : ℝ) ≤ 100 ∧ (100 : ℝ) ≤ 100 ∧ (4000 : ℝ) < 44100) ∧
      20 * Real.logb 10 (Complex.abs (transferFunction (preEmphasisCoeffs 44100 0)
          (Complex.exp ((preEmphasisW0 44100 : ℂ) * Complex.I)))) = 0 ∧
      20 * Real.logb 10 (Complex.abs (transferFunction (preEmphasisCoeffs 44100 100)
          (Complex.exp ((preEmphasisW0 44100 : ℂ) * Complex.I)))) = 9 :=
  have h0 : (0 : ℝ) ≤ 0 := le_refl _
  have h1 : (0 : ℝ) ≤ 100 := by norm_num
  have h2 : (100 : ℝ) ≤ 100 := le_refl _
  have h3 : (4000 : ℝ) < 44100 := by norm_num
  ⟨⟨h0, h1, h2, h3⟩,
    (preEmphasis_peaking_response 44100 0 h0 h1 h3).2.2.2.2.1.trans (by norm_num),
    (preEmphasis_peaking_response 44100 100 h1 h2 h3).2.2.2.2.1.trans (by norm_num)⟩

/-! ## Rounding to nearest: basic facts -/

theorem Nearest.rnd_of_rep {Rep : ℝ → Prop} (R : Nearest Rep) {a : ℝ} (h : Rep a) :
    R.rnd a = a := by
  have h1 := R.near a a h
  rw [sub_self, abs_zero] at h1
  have h2 := abs_eq_zero.mp (le_antisymm h1 (abs_nonneg _))
  linarith

theorem Nearest.rnd_le {Rep : ℝ → Prop} (R : Nearest Rep) {a y : ℝ} (h : Rep a) (hy : y ≤ a) :
    R.rnd y ≤ a := by
  by_contra hcon
  push_neg at hcon
  have h1 := R.near y a h
  rw [abs_of_nonpos (by linarith), abs_of_nonpos (by linarith)] at h1
  linarith

theorem Nearest.le_rnd {Rep : ℝ → Prop} (R : Nearest Rep) {a y : ℝ} (h : Rep a) (hy : a ≤ y) :
    a ≤ R.rnd y := by
  by_contra hcon
  push_neg at hcon
  have h1 := R.near y a h
  rw [abs_of_nonneg (by linarith), abs_of_nonneg (by linarith)] at h1
  linarith

theorem isBin_neg {p : ℕ} {emin emax : ℤ} {f : ℝ} (h : IsBin p emin emax f) :
    IsBin p emin emax (-f) := by
  obtain ⟨m, e, hm, he1, he2, rfl⟩ := h
  refine ⟨-m, e, by rwa [abs_neg], he1, he2, ?_⟩
  push_cast
  ring

theorem isF32_one : IsF32 1 := ⟨1, 0, by norm_num, by norm_num, by norm_num, by norm_num⟩

theorem isF32_neg_one : IsF32 (-1) := by
  have := isBin_neg isF32_one
  exact this

/-- Small integers are binary32 numbers. -/
theorem isF32_int (n : ℤ) (h : |n| < 2 ^ 24) : IsF32 (n : ℝ) :=
  ⟨n, 0, h, by norm_num, by norm_num, by norm_num⟩

/-- Binary32 numbers of magnitude at least 1/2 are integer multiples of `2⁻²⁴`. -/
theorem isF32_grid {f : ℝ} (h : IsF32 f) (hf : 1 / 2 ≤ |f|) : ∃ k : ℤ, f = (k : ℝ) / 2 ^ 24 := by
  obtain ⟨m, e, hm, -, -, rfl⟩ := h
  have hm' : |(m : ℝ)| < 2 ^ 24 := by exact_mod_cast hm
  have h2pos : (0 : ℝ) < (2 : ℝ) ^ e := by positivity
  have he : -24 ≤ e := by
    by_contra hcon
    push_neg at hcon
    have hle : (2 : ℝ) ^ e ≤ (2 : ℝ) ^ (-25 : ℤ) :=
      zpow_le_zpow_right₀ (by norm_num) (by omega)
    have h25 : (2 : ℝ) ^ (-25 : ℤ) = 1 / 2 ^ 25 := by
      rw [zpow_neg, zpow_ofNat, one_div]
    rw [abs_mul, abs_of_pos h2pos] at hf
    have : |(m : ℝ)| * (2 : ℝ) ^ e < 2 ^ 24 * (1 / 2 ^ 25) := by
      calc |(m : ℝ)| * (2 : ℝ) ^ e ≤ |(m : ℝ)| * (1 / 2 ^ 25) := by
            rw [← h25]
            exact mul_le_mul_of_nonneg_left hle (abs_nonneg _)
        _ < 2 ^ 24 * (1 / 2 ^ 25) := by
            apply mul_lt_mul_of_pos_right hm'
            positivity
    norm_num at this
    linarith
  obtain ⟨n, hn⟩ := Int.eq_ofNat_of_zero_le (by omega : 0 ≤ e + 24)
  refine ⟨m * 2 ^ n, ?_⟩
  have he' : e = (n : ℤ) + (-24) := by omega
  rw [he', zpow_add₀ (by norm_num : (2 : ℝ) ≠ 0), zpow_natCast, zpow_neg, zpow_ofNat]
  push_cast
  ring

/-- A real within `2⁻²⁵` of a binary32 number `g` with `1 ≤ |g|` rounds to `g`. -/
theorem Nearest.snap (R : Nearest IsF32) {g y : ℝ} (hg : IsF32 g) (hg1 : 1 ≤ |g|)
    (hy : |y - g| < 1 / 2 ^ 25) : R.rnd y = g := by
  have h1 := R.near y g hg
  have hr := R.rep y
  have hd : |R.rnd y - g| < 1 / 2 ^ 24 := by
    have e : R.rnd y - g = (y - g) - (y - R.rnd y) := by ring
    rw [e]
    calc |(y - g) - (y - R.rnd y)| ≤ |y - g| + |y - R.rnd y| := abs_sub _ _
      _ < 1 / 2 ^ 25 + 1 / 2 ^ 25 := by linarith
      _ = 1 / 2 ^ 24 := by norm_num
  have hrabs : 1 / 2 ≤ |R.rnd y| := by
    have h3 : |g| ≤ |R.rnd y| + |R.rnd y - g| := by
      have := abs_sub_abs_le_abs_sub g (R.rnd y)
      rw [abs_sub_comm g (R.rnd y)] at this
      linarith
    have : (1 : ℝ) / 2 ^ 24 ≤ 1 / 2 := by norm_num
    linarith
  obtain ⟨k, hk⟩ := isF32_grid hr hrabs
  obtain ⟨j, hj⟩ := isF32_grid hg (by linarith)
  rw [hk, hj] at hd ⊢
  have hkj : |(k : ℝ) - j| < 1 := by
    have e : (k : ℝ) / 2 ^ 24 - j / 2 ^ 24 = (k - j) / 2 ^ 24 := by ring
    rw [e, abs_div, abs_of_pos (by positivity : (0 : ℝ) < 2 ^ 24)] at hd
    rwa [div_lt_div_iff_of_pos_right (by positivity : (0 : ℝ) < 2 ^ 24)] at hd
  have hkj' : |k - j| < 1 := by exact_mod_cast hkj
  have : k - j = 0 := Int.abs_lt_one_iff.mp hkj'
  have hkeq : k = j := by omega
  rw [hkeq]

/-- For arguments from 20 on, the exact `tanh` is within `2⁻²⁵` of 1. -/
theorem tanh_near_one (y : ℝ) (hy : 20 ≤ y) : |Real.tanh y - 1| < 1 / 2 ^ 25 := by
  have hc : 0 < Real.cosh y := Real.cosh_pos y
  have hcs : Real.cosh y - Real.sinh y = Real.exp (-y) := Real.cosh_sub_sinh y
  have hce : Real.cosh y = (Real.exp y + Real.exp (-y)) / 2 := Real.cosh_eq y
  have e1 : 0 < Real.exp (-y) := Real.exp_pos _
  have e2 : 0 < Real.exp y := Real.exp_pos _
  have hexp : (2 : ℝ) ^ 20 ≤ Real.exp y := by
    have h20 : Real.exp 20 ≤ Real.exp y := Real.exp_le_exp.mpr hy
    have h1 : (2 : ℝ) ≤ Real.exp 1 := by
      have := Real.add_one_le_exp (1 : ℝ)
      linarith
    have h2 : Real.exp 20 = Real.exp 1 ^ 20 := by
      rw [← Real.exp_nat_mul]
      norm_num
    have h3 : (2 : ℝ) ^ 20 ≤ Real.exp 1 ^ 20 := pow_le_pow_left₀ (by norm_num) h1 20
    linarith
  have hinv : Real.exp (-y) * Real.exp y = 1 := by
    rw [← Real.exp_add]
    simp
  have hlt : Real.tanh y < 1 := (abs_lt.mp (abs_tanh_lt_one y)).2
  rw [abs_of_neg (by linarith), neg_sub, Real.tanh_eq_sinh_div_cosh]
  have e : 1 - Real.sinh y / Real.cosh y = Real.exp (-y) / Real.cosh y := by
    rw [← hcs]
    field_simp
  rw [e, div_lt_iff₀ hc, hce]
  have hsmall : Real.exp (-y) ≤ 1 / 2 ^ 20 := by
    rw [le_div_iff₀ (by positivity)]
    nlinarith
  nlinarith

theorem isF32_ofNat (n : ℕ) (h : n < 2 ^ 24) : IsF32 (n : ℝ) := by
  have h' : |(n : ℤ)| < 2 ^ 24 := by
    rw [abs_of_nonneg (Int.natCast_nonneg n)]
    exact_mod_cast h
  exact_mod_cast isF32_int n h'

theorem processSaturationF_abs_le_one (R : Nearest IsF32) (input drive : ℝ) :
    |processSaturationF R input drive| ≤ 1 := by
  simp only [processSaturationF]
  obtain ⟨hl, hu⟩ := abs_lt.mp (abs_tanh_lt_one
    (R.rnd (input * R.rnd (1 + R.rnd (R.rnd (drive / 100) * 8)))))
  rw [abs_le]
  exact ⟨R.le_rnd isF32_neg_one hl.le, R.rnd_le isF32_one hu.le⟩

/-- Once the rounded product `input * inputGain` is a binary32 number from 20
on, the binary32 saturation is exactly 1. -/
theorem Nearest.rnd_tanh_eq_one (R : Nearest IsF32) (y : ℝ) (hy : 20 ≤ y) :
    R.rnd (Real.tanh y) = 1 :=
  R.snap isF32_one (by norm_num) (tanh_near_one y hy)

theorem processSaturationF_ten_full_drive (R : Nearest IsF32) :
    processSaturationF R 10 100 = 1 := by
  have h8 : IsF32 8 := by simpa using isF32_ofNat 8 (by norm_num)
  have h9 : IsF32 9 := by simpa using isF32_ofNat 9 (by norm_num)
  have h90 : IsF32 90 := by simpa using isF32_ofNat 90 (by norm_num)
  have e1 : (100 : ℝ) / 100 = 1 := by norm_num
  have e2 : (1 : ℝ) * 8 = 8 := by norm_num
  have e3 : (1 : ℝ) + 8 = 9 := by norm_num
  have e4 : (10 : ℝ) * 9 = 90 := by norm_num
  simp only [processSaturationF]
  rw [e1, R.rnd_of_rep isF32_one, e2, R.rnd_of_rep h8, e3, R.rnd_of_rep h9, e4,
    R.rnd_of_rep h90]
  exact R.rnd_tanh_eq_one 90 (by norm_num)

/-- C1, as stated, fails on the binary32 code: for the input sample 10 at
drive 100 (both binary32 numbers, drive in range) the scaled sample is 90 and
the binary32 `tanh` is exactly 1, not strictly below 1. -/
theorem saturation_reaches_one :
    (IsF32 10 ∧ IsF32 100 ∧ (0 : ℝ) ≤ 100 ∧ (100 : ℝ) ≤ 100) ∧
      processSaturationF nearestF32 10 100 = 1 ∧
      ¬ |processSaturationF nearestF32 10 100| < 1 := by
  have h10 : IsF32 10 := by simpa using isF32_ofNat 10 (by norm_num)
  have h100 : IsF32 100 := by simpa using isF32_ofNat 100 (by norm_num)
  have h := processSaturationF_ten_full_drive nearestF32
  refine ⟨⟨h10, h100, by norm_num, le_refl _⟩, h, ?_⟩
  rw [h]
  norm_num

/-- C1, amended. For every input sample and every drive, the binary32
`processSaturation` has magnitude at most 1, whatever the tie rule of the
rounding; the exact value `tanh (x * (1 + (drive/100)*8))` that it rounds has
magnitude strictly below 1. -/
theorem processSaturation_abs_le_one (R : Nearest IsF32) (x drive : ℝ) :
    |processSaturationF R x drive| ≤ 1 ∧
      processSaturation x drive = Real.tanh (x * (1 + drive / 100 * 8)) ∧
      |processSaturation x drive| < 1 :=
  ⟨processSaturationF_abs_le_one R x drive, (processSaturation_abs_lt_one x drive).1,
    (processSaturation_abs_lt_one x drive).2⟩

/-! ## Drive 0 in binary32 -/

theorem isF32_dyadic (m : ℤ) (k : ℕ) (hm : |m| < 2 ^ 24) (hk : k ≤ 149) :
    IsF32 ((m : ℝ) / 2 ^ k) := by
  refine ⟨m, -(k : ℤ), hm, by omega, by omega, ?_⟩
  rw [zpow_neg, zpow_natCast, div_eq_mul_inv]

theorem isF32_flushThreshold : IsF32 flushThreshold := by
  have h := isF32_dyadic 12379400 90 (by norm_num) (by norm_num)
  have e : ((12379400 : ℤ) : ℝ) = 12379400 := by norm_num
  rw [e] at h
  simp only [flushThreshold]
  exact h

theorem flushThreshold_lt_decimal : flushThreshold < 1e-20 := by
  simp only [flushThreshold]
  norm_num

/-- From zero memory, an input equal to the threshold is stored, not flushed. -/
theorem biquadProcess_at_threshold (c : Coeffs) :
    (biquadProcess c flushThreshold { z1 := 0, z2 := 0 }).2.z1 = flushThreshold := by
  have h : ¬ (|flushThreshold| < flushThreshold) := by
    rw [abs_of_pos flushThreshold_pos]
    exact lt_irrefl _
  simp only [biquadProcess, mul_zero, sub_zero, if_neg h]

/-- C11, as stated, fails: the flush compares with `1e-20f`, which is below
the decimal `1e-20`. From zero memory the binary32 input `1e-20f` gives
`|w| < 1e-20`, yet `processPreEmphasis` stores `z1 = w`, not 0. -/
theorem flush_keeps_value_below_decimal :
    IsF32 flushThreshold ∧
      |flushThreshold - (preEmphasisCoeffs 44100 0).fa1 * 0 -
          (preEmphasisCoeffs 44100 0).fa2 * 0| < 1e-20 ∧
      (processPreEmphasis 44100 flushThreshold 0 { z1 := 0, z2 := 0 }).2.z1 = flushThreshold ∧
      (processPreEmphasis 44100 flushThreshold 0 { z1 := 0, z2 := 0 }).2.z1 ≠ 0 := by
  have h := biquadProcess_at_threshold (preEmphasisCoeffs 44100 0)
  refine ⟨isF32_flushThreshold, ?_, h, ?_⟩
  · rw [mul_zero, mul_zero, sub_zero, sub_zero, abs_of_pos flushThreshold_pos]
    exact flushThreshold_lt_decimal
  · rw [processPreEmphasis, h]
    exact flushThreshold_pos.ne'

/-- C11, amended. For every input `x`, drive, sample rate and filter memory
`(z1, z2)`, with `c` the normalised coefficients: `processPreEmphasis` forms
`w = x - a1 z1 - a2 z2`, returns `b0 w + b1 z1 + b2 z2` computed from the memory
before the update, and leaves `z2 = ` old `z1` and `z1 = w`, with `w` replaced
by 0 when `|w|` is below `1e-20f = 12379400 * 2⁻⁹⁰`. The value returned is not
the direct-form value first assigned to `output`: it exceeds it by
`(1 - b0) (a1 z1 + a2 z2)`. The binary32 step has the same shape, with every
operation rounded. -/
theorem processPreEmphasis_step (R : Nearest IsF32) (D : Nearest IsF64)
    (sampleRate x drive : ℝ) (state : FilterState) :
    processPreEmphasis sampleRate x drive state =
        (((preEmphasisCoeffs sampleRate drive).fb0 *
              (x - (preEmphasisCoeffs sampleRate drive).fa1 * state.z1 -
                (preEmphasisCoeffs sampleRate drive).fa2 * state.z2) +
            (preEmphasisCoeffs sampleRate drive).fb1 * state.z1 +
            (preEmphasisCoeffs sampleRate drive).fb2 * state.z2),
          { z1 :=
              if |x - (preEmphasisCoeffs sampleRate drive).fa1 * state.z1 -
                  (preEmphasisCoeffs sampleRate drive).fa2 * state.z2| < flushThreshold then 0
              else
                x - (preEmphasisCoeffs sampleRate drive).fa1 * state.z1 -
                  (preEmphasisCoeffs sampleRate drive).fa2 * state.z2
            z2 := state.z1 }) ∧
      flushThreshold = 12379400 / 2 ^ 90 ∧
      (processPreEmphasis sampleRate x drive state).1 =
        ((preEmphasisCoeffs sampleRate drive).fb0 * x +
            (preEmphasisCoeffs sampleRate drive).fb1 * state.z1 +
            (preEmphasisCoeffs sampleRate drive).fb2 * state.z2 -
            (preEmphasisCoeffs sampleRate drive).fa1 * state.z1 -
            (preEmphasisCoeffs sampleRate drive).fa2 * state.z2) +
          (1 - (preEmphasisCoeffs sampleRate drive).fb0) *
            ((preEmphasisCoeffs sampleRate drive).fa1 * state.z1 +
              (preEmphasisCoeffs sampleRate drive).fa2 * state.z2) ∧
      (processPreEmphasisF R D sampleRate x drive state).2 =
        { z1 :=
            if |R.rnd (R.rnd (x - R.rnd ((preEmphasisCoeffsF R D sampleRate drive).fa1 *
                  state.z1)) -
                R.rnd ((preEmphasisCoeffsF R D sampleRate drive).fa2 * state.z2))| <
                flushThreshold then 0
            else
              R.rnd (R.rnd (x - R.rnd ((preEmphasisCoeffsF R D sampleRate drive).fa1 *
                  state.z1)) -
                R.rnd ((preEmphasisCoeffsF R D sampleRate drive).fa2 * state.z2))
          z2 := state.z1 } := by
  refine ⟨?_, rfl, ?_, ?_⟩
  · simp only [processPreEmphasis, biquadProcess]
  · simp only [processPreEmphasis, biquadProcess]
    ring
  · simp only [processPreEmphasisF, biquadProcessF]

/-! ## C12: the flush invariant -/

theorem biquadProcess_flushed (c : Coeffs) (x : ℝ) (s : FilterState) (h : Flushed s) :
    Flushed (biquadProcess c x s).2 := by
  refine ⟨?_, h.1⟩
  simp only [biquadProcess]
  split_ifs with hw
  · exact Or.inl rfl
  · exact Or.inr (not_lt.mp hw)

theorem biquadProcessF_flushed (R : Nearest IsF32) (c : Coeffs) (x : ℝ) (s : FilterState)
    (h : Flushed s) : Flushed (biquadProcessF R c x s).2 := by
  refine ⟨?_, h.1⟩
  simp only [biquadProcessF]
  split_ifs with hw
  · exact Or.inl rfl
  · exact Or.inr (not_lt.mp hw)

theorem flushed_zero : Flushed { z1 := 0, z2 := 0 } :=
  ⟨Or.inl rfl, Or.inl rfl⟩

theorem filterStateAt_flushed (sr : ℝ) (drv x : ℕ → ℝ) (s0 : FilterState) (h : Flushed s0)
    (k : ℕ) : Flushed (filterStateAt sr drv x s0 k) := by
  induction k with
  | zero => exact h
  | succ k ih =>
    rw [filterStateAt, processPreEmphasis]
    exact biquadProcess_flushed _ _ _ ih

/-- C12, as stated, fails: read with the decimal `1e-20`, the predicate is
broken by a memory the code reaches. After `prepareToPlay`, the binary32 input
`1e-20f` leaves `z1 = 1e-20f`, which is not 0 and has magnitude below `1e-20`. -/
theorem stored_value_below_decimal :
    (prepareToPlay monoProcessor 44100 512).midBoostStateL = { z1 := 0, z2 := 0 } ∧
      IsF32 flushThreshold ∧
      (processPreEmphasis 44100 flushThreshold 0
        (prepareToPlay monoProcessor 44100 512).midBoostStateL).2.z1 ≠ 0 ∧
      |(processPreEmphasis 44100 flushThreshold 0
        (prepareToPlay monoProcessor 44100 512).midBoostStateL).2.z1| < 1e-20 := by
  have h : (processPreEmphasis 44100 flushThreshold 0
      (prepareToPlay monoProcessor 44100 512).midBoostStateL).2.z1 = flushThreshold :=
    biquadProcess_at_threshold (preEmphasisCoeffs 44100 0)
  refine ⟨rfl, isF32_flushThreshold, ?_, ?_⟩
  · rw [h]
    exact flushThreshold_pos.ne'
  · rw [h, abs_of_pos flushThreshold_pos]
    exact flushThreshold_lt_decimal

/-- C12, amended. The predicate "each of `z1`, `z2` is exactly 0 or has
magnitude at least `1e-20f = 12379400 * 2⁻⁹⁰`" holds for both filter memories
right after `prepareToPlay`, is kept by every call of `processPreEmphasis` (any
input, drive and sample rate; in exact arithmetic and in binary32), and hence is
kept for both memories by every `processBlock`. -/
theorem flush_invariant (R : Nearest IsF32) (D : Nearest IsF64) (p : Processor)
    (sampleRate : ℝ) (samplesPerBlock : ℤ)
    (sr x drive : ℝ) (state : FilterState) (q : Processor) (drv mix : ℕ → ℝ) (b : AudioBuffer)
    (hstate : Flushed state)
    (hqL : Flushed q.midBoostStateL) (hqR : Flushed q.midBoostStateR) :
    (Flushed (prepareToPlay p sampleRate samplesPerBlock).midBoostStateL ∧
        Flushed (prepareToPlay p sampleRate samplesPerBlock).midBoostStateR) ∧
      Flushed (processPreEmphasis sr x drive state).2 ∧
      Flushed (processPreEmphasisF R D sr x drive state).2 ∧
      (Flushed (processBlock q drv mix b).1.midBoostStateL ∧
        Flushed (processBlock q drv mix b).1.midBoostStateR) := by
  refine ⟨⟨flushed_zero, flushed_zero⟩, biquadProcess_flushed _ _ _ hstate,
    biquadProcessF_flushed R _ _ _ hstate, ?_, ?_⟩
  · have hs := (sampleLoop_spec drv mix b.numSamples (q, clearUnusedOutputs b
      q.totalNumInputChannels (q.totalNumOutputChannels - q.totalNumInputChannels))).stL
    simp only [processBlock]
    rw [hs]
    exact filterStateAt_flushed _ _ _ _ hqL _
  · have hs := (sampleLoop_spec drv mix b.numSamples (q, clearUnusedOutputs b
      q.totalNumInputChannels (q.totalNumOutputChannels - q.totalNumInputChannels))).stR
    simp only [processBlock]
    rw [hs]
    simp only []
    split_ifs
    · exact filterStateAt_flushed _ _ _ _ hqR _
    · exact hqR

/-- Witness for C12 amended: the ringing stereo processor, and one filter step
from memory `(1, 0)` with input 1/2 at drive 100. -/
theorem flush_invariant_witness :
    (Flushed { z1 := 1, z2 := 0 } ∧ Flushed ringingProcessor.midBoostStateL ∧
        Flushed ringingProcessor.midBoostStateR) ∧
      (Flushed (prepareToPlay ringingProcessor 48000 512).midBoostStateL ∧
        Flushed (prepareToPlay ringingProcessor 48000 512).midBoostStateR) ∧
      Flushed (processPreEmphasis 44100 (1 / 2) 100 { z1 := 1, z2 := 0 }).2 ∧
      Flushed (processPreEmphasisF nearestF32 nearestF64 44100 (1 / 2) 100
        { z1 := 1, z2 := 0 }).2 ∧
      (Flushed (processBlock ringingProcessor fullDrive fullMix
          stereoImpulseBlock).1.midBoostStateL ∧
        Flushed (processBlock ringingProcessor fullDrive fullMix
          stereoImpulseBlock).1.midBoostStateR) :=
  have h1 : Flushed { z1 := 1, z2 := 0 } := by
    refine ⟨Or.inr ?_, Or.inl rfl⟩
    show flushThreshold ≤ |1|
    simp only [flushThreshold]
    norm_num
  have h2 : Flushed ringingProcessor.midBoostStateR := by
    refine ⟨Or.inr ?_, Or.inr ?_⟩
    · show flushThreshold ≤ |1 / 2|
      rw [abs_of_pos (by norm_num), flushThreshold]
      norm_num
    · show flushThreshold ≤ |-1 / 4|
      rw [abs_of_neg (by norm_num), flushThreshold]
      norm_num
  ⟨⟨h1, h1, h2⟩,
    flush_invariant nearestF32 nearestF64 ringingProcessor 48000 512 44100 (1 / 2) 100
      { z1 := 1, z2 := 0 } ringingProcessor fullDrive fullMix stereoImpulseBlock h1 h1 h2⟩

end

end VT2R
